import Mathlib

/-!
Verification of the version-resolution engine of the repository
(semver parsing/comparison/bumping, conventional-commit classification,
impact aggregation, release-candidate index derivation).

The TypeScript sources are shallowly embedded: strings are `String`/`List Char`,
JS numbers holding integers are `Int`/`Nat`, `undefined`-able values are
`Option`, and a throwing constructor is `Except`.  JS truthiness of an
optional string (`undefined` and `""` are falsy) is modelled by `optFalsy`.
`localeCompare` on the identifier alphabet is modelled as ordinal (code-point)
comparison.
-/

/-- Impact enum from src/semver.ts: NOIMPACT(0) < PATCH(1) < MINOR(2) < MAJOR(3). -/
inductive Impact where
  | NOIMPACT
  | PATCH
  | MINOR
  | MAJOR
deriving DecidableEq, Repr

/-- Numeric value of the TS enum member. -/
def Impact.toNat : Impact → Nat
  | .NOIMPACT => 0
  | .PATCH => 1
  | .MINOR => 2
  | .MAJOR => 3

/-- Name of the TS enum member, as produced by `Impact[x]`. -/
def Impact.str : Impact → String
  | .NOIMPACT => "NOIMPACT"
  | .PATCH => "PATCH"
  | .MINOR => "MINOR"
  | .MAJOR => "MAJOR"

/-- Character class `[0-9]` (JS `\d`). -/
def isDigitC (c : Char) : Bool := 48 ≤ c.toNat && c.toNat ≤ 57

/-- Character class `[a-zA-Z]`. -/
def isAlphaC (c : Char) : Bool :=
  (65 ≤ c.toNat && c.toNat ≤ 90) || (97 ≤ c.toNat && c.toNat ≤ 122)

/-- Character class `[0-9a-zA-Z-]` of semver identifiers. -/
def isIdChar (c : Char) : Bool := isDigitC c || isAlphaC c || c = '-'

/-- JS `\w`, i.e. `[A-Za-z0-9_]`. -/
def isWordChar (c : Char) : Bool := isDigitC c || isAlphaC c || c = '_'

/-- JS `\s`: WhiteSpace (tab, VT, FF, space, NBSP, ZWNBSP, the Zs space separators)
together with the LineTerminator characters LF, CR, LS, PS. -/
def isJsSpace (c : Char) : Bool :=
  c.toNat = 9 || c.toNat = 10 || c.toNat = 11 || c.toNat = 12 || c.toNat = 13 ||
  c.toNat = 32 || c.toNat = 160 || c.toNat = 5760 ||
  (8192 ≤ c.toNat && c.toNat ≤ 8202) || c.toNat = 8232 || c.toNat = 8233 ||
  c.toNat = 8239 || c.toNat = 8287 || c.toNat = 12288 || c.toNat = 65279

/-- JS LineTerminator characters (LF, CR, LS, PS) — the characters regex `.` does not
match outside dotall mode. -/
def isLineTerm (c : Char) : Bool :=
  c.toNat = 10 || c.toNat = 13 || c.toNat = 8232 || c.toNat = 8233

/-- JS `String.prototype.split` on a character class: `"a..b".split('.') = ["a","","b"]`,
`"".split('.') = [""]`. -/
def splitOnP (p : Char → Bool) : List Char → List (List Char)
  | [] => [[]]
  | c :: cs =>
    if p c then [] :: splitOnP p cs
    else
      match splitOnP p cs with
      | [] => [[c]]
      | h :: t => (c :: h) :: t

/-- JS numeric parsing of a digit string (`Number`/`parseInt` base 10). -/
def digitsToNat (s : List Char) : Nat := s.foldl (fun a c => 10 * a + (c.toNat - 48)) 0

/-- Test `/^[0-9]+$/`: nonempty, all digits. -/
def isNumericId (s : List Char) : Bool := !s.isEmpty && s.all isDigitC

/-- Ordinal string comparison returning the sign (-1/0/1); the model of
`localeCompare` on the semver identifier alphabet. -/
def strCmp : List Char → List Char → Int
  | [], [] => 0
  | [], _ :: _ => -1
  | _ :: _, [] => 1
  | a :: as, b :: bs =>
    if a.toNat < b.toNat then -1
    else if b.toNat < a.toNat then 1
    else strCmp as bs

/-- Sign of `a - b` on naturals, the model of `Math.sign(Number(ap) - Number(bp))`. -/
def natCmpI (a b : Nat) : Int := if a < b then -1 else if b < a then 1 else 0

/-- Comparison of one prerelease identifier pair, one iteration of the loop body of
`SemanticVersion.comparePrerelease` (src/semver.ts lines 138-157): numeric pairs
compare by value, a numeric identifier sorts below a non-numeric one, otherwise
string comparison. -/
def idCmp (a b : List Char) : Int :=
  if isNumericId a && isNumericId b then natCmpI (digitsToNat a) (digitsToNat b)
  else if isNumericId a ≠ isNumericId b then (if isNumericId a then -1 else 1)
  else strCmp a b

/-- The whole identifier-list loop of `comparePrerelease`: first non-zero identifier
comparison wins, an exhausted (shorter) side sorts lower. -/
def idsCmp : List (List Char) → List (List Char) → Int
  | [], [] => 0
  | [], _ :: _ => -1
  | _ :: _, [] => 1
  | a :: as, b :: bs => if idCmp a b = 0 then idsCmp as bs else idCmp a b

/-- JS falsiness of an optional string: `undefined` and `""` are falsy. -/
def optFalsy : Option String → Bool
  | none => true
  | some s => s.isEmpty

/-- The `SemanticVersion` value: fields of the TS class (src/semver.ts lines 10-15).
`major`/`minor`/`patch` are JS numbers holding integers, modelled as `Int`. -/
structure SemanticVersion where
  major : Int
  minor : Int
  patch : Int
  prerelease : Option String := none
  buildmetadata : Option String := none
deriving DecidableEq, Repr

/-- `SemanticVersion.comparePrerelease` (src/semver.ts lines 126-159). -/
def SemanticVersion.comparePrerelease (a b : Option String) : Int :=
  if optFalsy a && optFalsy b then 0
  else if optFalsy a then 1
  else if optFalsy b then -1
  else idsCmp (splitOnP (· = '.') (a.getD "").data) (splitOnP (· = '.') (b.getD "").data)

/-- `SemanticVersion.compare` (src/semver.ts lines 168-181). -/
def SemanticVersion.compare (a b : SemanticVersion) : Int :=
  if a.major - b.major ≠ 0 then Int.sign (a.major - b.major)
  else if a.minor - b.minor ≠ 0 then Int.sign (a.minor - b.minor)
  else if a.patch - b.patch ≠ 0 then Int.sign (a.patch - b.patch)
  else SemanticVersion.comparePrerelease a.prerelease b.prerelease

/-- Decimal digits of `n`, most significant first, by fuelled division
(the rendering of a non-negative integer by JS string interpolation). -/
def natToDigitsAux : Nat → Nat → List Char
  | 0, _ => []
  | fuel+1, n => if n = 0 then [] else natToDigitsAux fuel (n / 10) ++ [Char.ofNat (48 + n % 10)]

/-- Decimal rendering of a natural number. -/
def natToStrL (n : Nat) : List Char := if n = 0 then ['0'] else natToDigitsAux (n+1) n

/-- Decimal rendering of a JS integer number (template-literal interpolation). -/
def intToStrL (n : Int) : List Char := if n < 0 then '-' :: natToStrL n.natAbs else natToStrL n.toNat

/-- Semver numeric field or numeric prerelease identifier, `0|[1-9]\d*`:
nonempty, all digits, no leading zero unless the literal `0`. -/
def isNumericCore : List Char → Bool
  | [] => false
  | c :: cs => isDigitC c && cs.all isDigitC && (decide (c ≠ '0') || cs.isEmpty)

/-- One prerelease identifier, `0|[1-9]\d*|\d*[a-zA-Z-][0-9a-zA-Z-]*`.  The second
alternative is exactly: nonempty, identifier characters only, at least one non-digit. -/
def isPreId (s : List Char) : Bool :=
  isNumericCore s || (!s.isEmpty && s.all isIdChar && !s.all isDigitC)

/-- One buildmetadata identifier, `[0-9a-zA-Z-]+`. -/
def isBuildId (s : List Char) : Bool := !s.isEmpty && s.all isIdChar

/-- Test of the whole `prerelease_re` of src/semver.ts line 30 on a string. -/
def validPre (s : String) : Bool := (splitOnP (· = '.') s.data).all isPreId

/-- Test of the whole `buildmetadata_re` of src/semver.ts line 36 on a string. -/
def validBuild (s : String) : Bool := (splitOnP (· = '.') s.data).all isBuildId

/-- The `SemanticVersion` constructor (src/semver.ts lines 17-41): assign the fields,
then throw if a truthy prerelease fails `prerelease_re` or a truthy buildmetadata
fails `buildmetadata_re`.  A falsy argument (absent or `""`) is not checked. -/
def mkSemanticVersion (major minor patch : Int)
    (prerelease buildmetadata : Option String) : Except String SemanticVersion :=
  if !optFalsy prerelease && !validPre (prerelease.getD "") then
    .error ("Invalid prerelease format: " ++ prerelease.getD "")
  else if !optFalsy buildmetadata && !validBuild (buildmetadata.getD "") then
    .error ("Invalid build metadata format: " ++ buildmetadata.getD "")
  else .ok ⟨major, minor, patch, prerelease, buildmetadata⟩

/-- `SemanticVersion.toString` (src/semver.ts lines 43-48) as a character list:
`major.minor.patch`, then `-prerelease` if truthy, then `+buildmetadata` if truthy. -/
def SemanticVersion.toStringL (v : SemanticVersion) : List Char :=
  intToStrL v.major ++ '.' :: intToStrL v.minor ++ '.' :: intToStrL v.patch
    ++ (if optFalsy v.prerelease then [] else '-' :: (v.prerelease.getD "").data)
    ++ (if optFalsy v.buildmetadata then [] else '+' :: (v.buildmetadata.getD "").data)

/-- `SemanticVersion.toString` as a string. -/
def SemanticVersion.toString (v : SemanticVersion) : String := ⟨v.toStringL⟩

/-- `SemanticVersion.bump` (src/semver.ts lines 79-119).  The source routes the new
fields through the validating constructor; every call site relevant to the claims
passes absent prerelease/buildmetadata, for which validation is a no-op, so the
field assignment is modelled directly. -/
def SemanticVersion.bump (v : SemanticVersion) (impact : Impact)
    (prerelease buildmetadata : Option String) : SemanticVersion :=
  match impact with
  | .MAJOR => ⟨v.major + 1, 0, 0, prerelease, buildmetadata⟩
  | .MINOR => ⟨v.major, v.minor + 1, 0, prerelease, buildmetadata⟩
  | .PATCH => ⟨v.major, v.minor, v.patch + 1, prerelease, buildmetadata⟩
  | .NOIMPACT => ⟨v.major, v.minor, v.patch, prerelease, buildmetadata⟩

/-- The `major.minor.patch` core of the semver regex of `SemanticVersion.parse`
(src/semver.ts line 189): exactly three dot-separated `0|[1-9]\d*` fields. -/
def parseMMP (cs : List Char) : Option (Nat × Nat × Nat) :=
  match splitOnP (· = '.') cs with
  | [a, b, c] =>
    if isNumericCore a && isNumericCore b && isNumericCore c then
      some (digitsToNat a, digitsToNat b, digitsToNat c)
    else none
  | _ => none

/-- The part of the semver regex before `+`: `major.minor.patch` optionally followed
by `-prerelease`.  The numeric triple contains no `-`, and a prerelease (if any)
starts at the first `-` after the triple, so splitting at the first `-` is exact. -/
def parseCoreStr (core : List Char) (bmeta : Option String) : Option SemanticVersion :=
  match parseMMP (core.takeWhile (· ≠ '-')) with
  | none => none
  | some (ma, mi, pa) =>
    match core.dropWhile (· ≠ '-') with
    | [] => some ⟨(ma : Int), (mi : Int), (pa : Int), none, bmeta⟩
    | _ :: pre =>
      if (splitOnP (· = '.') pre).all isPreId then
        some ⟨(ma : Int), (mi : Int), (pa : Int), some ⟨pre⟩, bmeta⟩
      else none

/-- `SemanticVersion.parse` (src/semver.ts lines 187-205): the anchored semver regex
with optional leading `v`.  No identifier may contain `+`, so the optional
buildmetadata is everything after a single `+`; two or more `+` never match. -/
def SemanticVersion.parse (version : String) : Option SemanticVersion :=
  let cs := if version.data.head? = some 'v' then version.data.tail else version.data
  match splitOnP (· = '+') cs with
  | [core] => parseCoreStr core none
  | [core, bmeta] =>
    if (splitOnP (· = '.') bmeta).all isBuildId then parseCoreStr core (some ⟨bmeta⟩)
    else none
  | _ => none

/-- Separator class `[.\-_]` of `SemanticVersion.nextRcIndex` (src/semver.ts line 232). -/
def isSepC (c : Char) : Bool := c = '.' || c = '-' || c = '_'

/-- Match of one token against `/^rc([0-9]+)$/i` (src/semver.ts line 236),
returning the numeric index. -/
def rcInlineVal : List Char → Option Nat
  | r :: c :: rest =>
    if r.toLower = 'r' && c.toLower = 'c' && !rest.isEmpty && rest.all isDigitC then
      some (digitsToNat rest)
    else none
  | _ => none

/-- Match of one token against `/^rc$/i` (src/semver.ts line 245). -/
def isRcBare : List Char → Bool
  | [r, c] => r.toLower = 'r' && c.toLower = 'c'
  | _ => false

/-- The token loop of `SemanticVersion.nextRcIndex` (src/semver.ts lines 233-255)
over one prerelease, threading the running maximum: `rc<digits>` contributes its
number, a bare `rc` contributes 0 when last or the next token's value when that
token is purely numeric, anything else contributes nothing. -/
def scanRcParts : List (List Char) → Int → Int
  | [], m => m
  | p :: rest, m =>
    match rcInlineVal p with
    | some n => scanRcParts rest (max m (n : Int))
    | none =>
      if isRcBare p then
        match rest with
        | [] => max m 0
        | q :: _ =>
          if !q.isEmpty && q.all isDigitC then scanRcParts rest (max m ((digitsToNat q : Int)))
          else scanRcParts rest m
      else scanRcParts rest m

/-- `SemanticVersion.nextRcIndex` (src/semver.ts lines 216-259): scan every tag name
that parses, matches `base` on major.minor.patch and has a truthy prerelease;
return the running maximum plus one (the maximum starts at -1). -/
def SemanticVersion.nextRcIndex (base : SemanticVersion) (tagNames : List String) : Int :=
  (tagNames.foldl (fun m name =>
    match SemanticVersion.parse name with
    | none => m
    | some parsed =>
      if parsed.major = base.major && parsed.minor = base.minor &&
          parsed.patch = base.patch && !optFalsy parsed.prerelease then
        scanRcParts (splitOnP isSepC (parsed.prerelease.getD "").data) m
      else m) (-1)) + 1

/-- Contribution list of one token sequence, written from the spec sentence: a token
matching `rc<digits>` contributes its number; a bare `rc` token contributes 0 if it
is last, or the next token's value if that token is purely numeric; every other
token contributes nothing.  Spec-side definition used to state claim C5. -/
def rcContribsSpec : List (List Char) → List Nat
  | [] => []
  | p :: rest =>
    (match rcInlineVal p with
     | some n => [n]
     | none =>
       if isRcBare p then
         match rest with
         | [] => [0]
         | q :: _ => if !q.isEmpty && q.all isDigitC then [digitsToNat q] else []
       else []) ++ rcContribsSpec rest

/-- Contributions of one tag name, written from the spec sentence: only tags parsing
as semver with a prerelease and matching `base` on major.minor.patch contribute. -/
def tagContribsSpec (base : SemanticVersion) (name : String) : List Nat :=
  match SemanticVersion.parse name with
  | none => []
  | some parsed =>
    if parsed.major = base.major && parsed.minor = base.minor &&
        parsed.patch = base.patch && !optFalsy parsed.prerelease then
      rcContribsSpec (splitOnP isSepC (parsed.prerelease.getD "").data)
    else []

/-- The runtime value held by a parsed record's `impact` field: a member of the
`Impact` enum for an own key of `TypeToImpactMapping` (or once `!` forces MAJOR), or —
because `type in TypeToImpactMapping` also finds the properties inherited from
`Object.prototype` — the inherited member itself (a function, or the prototype object
for `__proto__`), tagged here by the property name that reached it. -/
inductive JsImpact where
  | num (i : Impact)
  | inherited (name : String)
deriving DecidableEq, Repr

/-- A JS number produced by `Math.max` over stored impact values: an enum value, or
NaN when some operand coerces to NaN (an inherited non-number does). -/
inductive JsMaxVal where
  | val (i : Impact)
  | nan
deriving DecidableEq, Repr

/-- `Number(x)` coercion of a stored impact value as `Math.max` applies it. -/
def toJsNumber : JsImpact → JsMaxVal
  | .num i => .val i
  | .inherited _ => .nan

/-- JS `body_impact > impact.impact`: numeric comparison, false whenever the stored
impact is an inherited non-number (its coercion is NaN). -/
def jsGtImpact (b : Impact) : JsImpact → Bool
  | .num i => decide (i.toNat < b.toNat)
  | .inherited _ => false

/-- JS loose `!=` between a stored impact value and a `Math.max` result: numeric
inequality on two numbers; true against NaN and for an inherited non-number (a
function is never loosely equal to a number). -/
def jsLooseNe : JsImpact → JsMaxVal → Bool
  | .num i, .val m => decide (i ≠ m)
  | _, _ => true

/-- JS strict `===` between a stored impact value and a `Math.max` result: false
against NaN and for an inherited non-number. -/
def jsStrictEq : JsImpact → JsMaxVal → Bool
  | .num i, .val m => decide (i = m)
  | _, _ => false

/-- `Impact[v]` as interpolated into a template literal: the enum's reverse mapping,
`"undefined"` when the index is not an enum value (an inherited member or NaN). -/
def impactIndexName : JsImpact → String
  | .num i => i.str
  | .inherited _ => "undefined"

/-- `Impact[m]` for a `Math.max` result, `"undefined"` for NaN. -/
def maxIndexName : JsMaxVal → String
  | .val i => i.str
  | .nan => "undefined"

/-- The `{type, impact}` record of src/conventional_commits.ts. -/
structure ParsedCommitInfo where
  type : String
  impact : JsImpact
deriving DecidableEq, Repr

/-- `TypeToImpactMapping` of src/conventional_commits.ts lines 25-36. -/
def TypeToImpactMapping : List (String × Impact) :=
  [("docs", .NOIMPACT), ("style", .NOIMPACT), ("test", .NOIMPACT), ("chore", .NOIMPACT),
   ("build", .NOIMPACT), ("ci", .NOIMPACT), ("refactor", .PATCH), ("fix", .PATCH),
   ("perf", .PATCH), ("feat", .MINOR)]

/-- Case-sensitive lookup among the ten OWN keys of `TypeToImpactMapping`: the numeric
enum member indexing yields for an own key, none for every other name (including the
names only found further up the prototype chain). -/
def lookupType (ty : String) : Option Impact :=
  (TypeToImpactMapping.find? (fun p => p.1 == ty)).map (fun p => p.2)

/-- The property names `in` finds on `Object.prototype` in the Node runtime. -/
def objectPrototypeKeys : List String :=
  ["constructor", "hasOwnProperty", "isPrototypeOf", "propertyIsEnumerable",
   "toLocaleString", "toString", "valueOf", "__defineGetter__", "__defineSetter__",
   "__lookupGetter__", "__lookupSetter__", "__proto__"]

/-- `type in TypeToImpactMapping` (src/conventional_commits.ts line 108): JS `in`
walks the prototype chain of the object literal, so besides the ten own keys it also
accepts every `Object.prototype` property name. -/
def jsInMapping (ty : String) : Bool :=
  TypeToImpactMapping.any (fun p => p.1 == ty) || objectPrototypeKeys.contains ty

/-- `TypeToImpactMapping[type]` for a `type` that `jsInMapping` accepts: an own key
yields its enum member, an inherited name yields the inherited prototype member. -/
def indexMapping (ty : String) : JsImpact :=
  match TypeToImpactMapping.find? (fun p => p.1 == ty) with
  | some p => .num p.2
  | none => .inherited ty

/-- The title regex of `ParseConventionalTitle` (src/conventional_commits.ts line 93):
`^(?<type>\w+)(?:\((?<scope>[^)]+)\))?(?<breaking>!)?:\s*(?<description>.*)$`.
The match is deterministic: the char after the maximal `\w+` run must be `(`, `!`
or `:` (none of them word characters), a scope runs to the first `)`, and `.` does
not cross a LineTerminator while `\s` may, so after the greedy whitespace skip the
description must be free of line terminators for `$` (end of string, no `m` flag)
to be reached. -/
def matchConventionalTitle (title : String) :
    Option (String × Option String × Bool × String) :=
  let cs := title.data
  let ty := cs.takeWhile isWordChar
  let r1 := cs.dropWhile isWordChar
  if ty.isEmpty then none
  else
    let scopedPart : Option (Option (List Char) × List Char) :=
      match r1 with
      | '(' :: r2 =>
        let sc := r2.takeWhile (· ≠ ')')
        (match r2.dropWhile (· ≠ ')') with
         | ')' :: r4 => if sc.isEmpty then none else some (some sc, r4)
         | _ => none)
      | _ => some (none, r1)
    match scopedPart with
    | none => none
    | some (sc, r4) =>
      let br := match r4 with
        | '!' :: r => (true, r)
        | r => (false, r)
      match br.2 with
      | ':' :: r6 =>
        let d := r6.dropWhile isJsSpace
        if d.any isLineTerm then none
        else some (⟨ty⟩, sc.map (fun l => (⟨l⟩ : String)), br.1, ⟨d⟩)
      | _ => none

/-- `ParseConventionalTitle` (src/conventional_commits.ts lines 88-120): regex match,
then the `type in TypeToImpactMapping` check (prototype chain included) followed by
indexing, with `!` forcing MAJOR. -/
def ParseConventionalTitle (title : String) : Option ParsedCommitInfo :=
  match matchConventionalTitle title with
  | none => none
  | some (ty, _, bang, _) =>
    if jsInMapping ty then
      some ⟨ty, if bang then .num .MAJOR else indexMapping ty⟩
    else none

/-- Opening delimiter of the renovate changelog block of the strip regex of
`ParseConventionalBody` (src/conventional_commits.ts line 74). -/
def renovateHead : List Char := "---\n\n### Release Notes\n\n<details>".data

/-- Closing delimiter of the renovate changelog block. -/
def renovateTail : List Char := "</details>\n\n---".data

/-- Test that `pat` is an initial segment of `l`. -/
def isLeadOf : List Char → List Char → Bool
  | [], _ => true
  | _ :: _, [] => false
  | a :: as, b :: bs => a = b && isLeadOf as bs

/-- Indices `i, i+1, ...` at which `pat` occurs in the remaining suffix. -/
def occsFrom (pat : List Char) : List Char → Nat → List Nat
  | [], i => if isLeadOf pat [] then [i] else []
  | c :: t, i => (if isLeadOf pat (c :: t) then [i] else []) ++ occsFrom pat t (i+1)

/-- All occurrence indices of `pat` in `s`. -/
def occIdxs (pat s : List Char) : List Nat := occsFrom pat s 0

/-- The single replacement of `body.replace(re, '')` for the non-global regex
`/---\n\n### Release Notes\n\n<details>(?:.|\n)*<\/details>\n\n---/`
(src/conventional_commits.ts lines 74-75).  A match starts at an occurrence of
`renovateHead` followed (at distance at least its length) by some occurrence of
`renovateTail`; the engine picks the leftmost such start, and the greedy
`(?:.|\n)*` extends the match to the last eligible `renovateTail` occurrence. -/
def stripRenovate (s : List Char) : List Char :=
  let tailOccs := occIdxs renovateTail s
  let starts := (occIdxs renovateHead s).filter
    (fun i => tailOccs.any (fun j => renovateHead.length + i ≤ j))
  match starts with
  | [] => s
  | i :: _ =>
    match (tailOccs.filter (fun j => renovateHead.length + i ≤ j)).getLast? with
    | none => s
    | some j => s.take i ++ s.drop (j + renovateTail.length)

/-- JS `String.prototype.includes`. -/
def containsSub (s pat : List Char) : Bool := !(occIdxs pat s).isEmpty

/-- The literal token searched by `ParseConventionalBody`. -/
def breakingToken : List Char := "BREAKING CHANGE".data

/-- `ParseConventionalBody` (src/conventional_commits.ts lines 72-81): strip the
renovate block, then MAJOR iff the remainder contains `BREAKING CHANGE`. -/
def ParseConventionalBody (body : String) : Option Impact :=
  if containsSub (stripRenovate body.data) breakingToken then some .MAJOR else none

/-- `getConventionalImpact` (src/conventional_commits.ts lines 45-65) on the
`title`/`body` fields of its argument: title first (none if it fails), then a
truthy body may raise the impact (a truthy body impact greater than the title
impact wins) while the parsed type is preserved. -/
def getConventionalImpact (title : String) (body : Option String) :
    Option ParsedCommitInfo :=
  match ParseConventionalTitle title with
  | none => none
  | some info =>
    if optFalsy body then some info
    else
      match ParseConventionalBody (body.getD "") with
      | none => some info
      | some bi =>
        if bi.toNat ≠ 0 ∧ jsGtImpact bi info.impact = true then some ⟨info.type, .num bi⟩
        else some info

/-- The `Commit` record consumed by the engine (src/git.ts): `{sha, title, body?}`. -/
structure Commit where
  sha : String
  title : String
  body : Option String
deriving DecidableEq, Repr

/-- A GitHub label, `{name}`. -/
structure Label where
  name : String
deriving DecidableEq, Repr

/-- The pull-request fields consumed by the engine (src/github.ts `PullRequest`). -/
structure PullRequest where
  title : String
  body : Option String
  labels : List Label
  merged : Bool
deriving DecidableEq, Repr

/-- `ImpactResult` of src/main.ts lines 13-19. -/
structure ImpactResult where
  prImpact : Option ParsedCommitInfo
  commitImpacts : List ParsedCommitInfo
  maxCommitImpact : Option JsMaxVal
  finalImpact : Option ParsedCommitInfo
  warning : Option String
deriving DecidableEq, Repr

/-- JS `Math.max` on two impact values. -/
def impactMax (a b : Impact) : Impact := if a.toNat < b.toNat then b else a

/-- JS `Math.max` on two coerced numbers: NaN poisons. -/
def jsMax : JsMaxVal → JsMaxVal → JsMaxVal
  | .val a, .val b => .val (impactMax a b)
  | _, _ => .nan

/-- `Math.max(...commit_impacts.map(c => c.impact))` when nonempty, else undefined. -/
def maxCommitImpactOf (l : List ParsedCommitInfo) : Option JsMaxVal :=
  match l.map (fun c => toJsNumber c.impact) with
  | [] => none
  | x :: xs => some (xs.foldl jsMax x)

/-- The warning string of src/main.ts line 52, interpolating `Impact[...]`. -/
def mkWarning (p : JsImpact) (m : JsMaxVal) : String :=
  "Impact from PR title (" ++ impactIndexName p ++
    ") differs from maximum commit impact (" ++ maxIndexName m ++
    "). Using PR title impact (" ++ impactIndexName p ++ ") for version bump."

/-- `getImpactFromGithub` (src/main.ts lines 21-84): classify the PR and every commit,
take the maximum commit impact, then resolve: both present and loosely different
gives the PR impact plus a warning; else the PR impact; else the first commit whose
stored impact is strictly equal to the maximum; else nothing (the source also calls
`core.setFailed`, a side effect outside the returned record). -/
def getImpactFromGithub (pr : PullRequest) (commits : List Commit) : ImpactResult :=
  let pr_impact := getConventionalImpact pr.title pr.body
  let commit_impacts := commits.filterMap (fun c => getConventionalImpact c.title c.body)
  let max_commit_impact := maxCommitImpactOf commit_impacts
  match pr_impact, max_commit_impact with
  | some pi, some m =>
    if jsLooseNe pi.impact m then
      ⟨some pi, commit_impacts, some m, some pi, some (mkWarning pi.impact m)⟩
    else ⟨some pi, commit_impacts, some m, some pi, none⟩
  | some pi, none => ⟨some pi, commit_impacts, none, some pi, none⟩
  | none, some m =>
    ⟨none, commit_impacts, some m, commit_impacts.find? (fun c => jsStrictEq c.impact m), none⟩
  | none, none => ⟨none, commit_impacts, none, none, none⟩

/-- ASCII model of `String.prototype.toLowerCase`. -/
def strToLower (s : String) : String := ⟨s.data.map Char.toLower⟩

/-- `handle_release_candidates` (src/main.ts lines 86-119).  The source fetches the
previous release candidates of the bumped base from git or the GitHub API; that
external result is passed here as `previous_release_candidates`.  A merged PR gets
no prerelease; a PR labelled `release-candidate` (case-insensitively) gets
`rc` followed by `nextRcIndex` of the bumped base over the fetched tag names. -/
def handle_release_candidates (pr : PullRequest) (impact : Impact)
    (last_release_version : SemanticVersion)
    (previous_release_candidates : List SemanticVersion) : Option String :=
  let is_prerelease := pr.labels.any (fun label => strToLower label.name == "release-candidate")
  if pr.merged then none
  else if is_prerelease then
    let bumped_base := last_release_version.bump impact none none
    let rcNames := previous_release_candidates.map SemanticVersion.toString
    some ⟨'r' :: 'c' :: intToStrL (SemanticVersion.nextRcIndex bumped_base rcNames)⟩
  else none

/-- Fold of `max` over natural contributions starting from an integer accumulator,
the accumulation shape of `nextRcIndex`. -/
def maxFoldI (m : Int) (l : List Nat) : Int := l.foldl (fun a n => max a (n : Int)) m

deriving instance DecidableEq for Except

/-- A concrete renovate-style changelog block: opening delimiter, summary, an internal
upstream BREAKING CHANGES heading, closing delimiter.  Used to state claim C8. -/
def renovateBlock : List Char :=
  ("---\n\n### Release Notes\n\n<details>\n<summary>dep</summary>\n\n##### BREAKING CHANGES\n\nupstream note\n\n</details>\n\n---").data

/-! ### Comparator lemmas (towards claim C1) -/

theorem natCmpI_antisym (u v : Nat) : natCmpI u v = - natCmpI v u := by
  unfold natCmpI; split_ifs <;> omega

theorem natCmpI_eq_zero {u v : Nat} (h : natCmpI u v = 0) : u = v := by
  unfold natCmpI at h; split_ifs at h <;> omega

theorem natCmpI_neg_iff {u v : Nat} : natCmpI u v = -1 ↔ u < v := by
  unfold natCmpI
  split_ifs with h1 h2
  · simp [h1]
  · constructor
    · intro h; exact absurd h (by decide)
    · intro h; exact absurd h h1
  · constructor
    · intro h; exact absurd h (by decide)
    · intro h; exact absurd h h1

theorem strCmp_antisym (a : List Char) : ∀ b, strCmp a b = - strCmp b a := by
  induction a with
  | nil => intro b; cases b <;> simp [strCmp]
  | cons x xs ih =>
    intro b
    cases b with
    | nil => simp [strCmp]
    | cons y ys =>
      simp only [strCmp]
      by_cases h1 : x.toNat < y.toNat
      · have h2 : ¬ y.toNat < x.toNat := by omega
        simp [h1, h2]
      · by_cases h2 : y.toNat < x.toNat
        · simp [h1, h2]
        · simp [h1, h2, ih ys]

theorem strCmp_congr {a b : List Char} (h : strCmp a b = 0) :
    ∀ c, strCmp a c = strCmp b c := by
  induction a generalizing b with
  | nil =>
    cases b with
    | nil => intro c; rfl
    | cons y ys => simp [strCmp] at h
  | cons x xs ih =>
    cases b with
    | nil => simp [strCmp] at h
    | cons y ys =>
      simp only [strCmp] at h
      by_cases h1 : x.toNat < y.toNat
      · simp [h1] at h
      · by_cases h2 : y.toNat < x.toNat
        · simp [h1, h2] at h
        · simp only [h1, h2, if_false] at h
          intro c
          cases c with
          | nil => simp [strCmp]
          | cons z zs =>
            have hxy : x.toNat = y.toNat := by omega
            simp only [strCmp, hxy]
            by_cases g1 : y.toNat < z.toNat
            · simp [g1]
            · by_cases g2 : z.toNat < y.toNat
              · simp [g1, g2]
              · simp [g1, g2, ih h zs]

theorem strCmp_trans_neg {a : List Char} : ∀ {b c : List Char},
    strCmp a b = -1 → strCmp b c = -1 → strCmp a c = -1 := by
  induction a with
  | nil =>
    intro b c h1 h2
    cases b with
    | nil => simp [strCmp] at h1
    | cons y ys =>
      cases c with
      | nil => simp [strCmp] at h2
      | cons z zs => simp [strCmp]
  | cons x xs ih =>
    intro b c h1 h2
    cases b with
    | nil => simp [strCmp] at h1
    | cons y ys =>
      cases c with
      | nil => simp [strCmp] at h2
      | cons z zs =>
        simp only [strCmp] at h1 h2 ⊢
        by_cases e1 : x.toNat < y.toNat <;> by_cases e2 : y.toNat < z.toNat
        · have : x.toNat < z.toNat := by omega
          simp [this]
        · by_cases e3 : z.toNat < y.toNat
          · simp [e1, e2, e3] at h2
          · have : x.toNat < z.toNat := by omega
            simp [this]
        · by_cases e3 : y.toNat < x.toNat
          · simp [e1, e3] at h1
          · have : x.toNat < z.toNat := by omega
            simp [this]
        · by_cases e3 : y.toNat < x.toNat
          · simp [e1, e3] at h1
          · by_cases e4 : z.toNat < y.toNat
            · simp [e2, e4] at h2
            · have g1 : ¬ x.toNat < z.toNat := by omega
              have g2 : ¬ z.toNat < x.toNat := by omega
              simp only [e1, e3, if_false] at h1
              simp only [e2, e4, if_false] at h2
              simp [g1, g2, ih h1 h2]

theorem idCmp_antisym (a b : List Char) : idCmp a b = - idCmp b a := by
  by_cases ha : isNumericId a <;> by_cases hb : isNumericId b
  · simp only [idCmp, ha, hb, Bool.and_self, if_true]
    exact natCmpI_antisym _ _
  · simp [idCmp, ha, hb]
  · simp [idCmp, ha, hb]
  · simp only [idCmp, ha, hb, Bool.and_self, ne_eq, not_false_eq_true, not_true_eq_false,
      if_false, ite_self]
    simpa using strCmp_antisym a b

theorem idCmp_congr {a b : List Char} (h : idCmp a b = 0) :
    ∀ c, idCmp a c = idCmp b c := by
  intro c
  by_cases ha : isNumericId a <;> by_cases hb : isNumericId b <;>
    by_cases hc : isNumericId c
  · have hv : digitsToNat a = digitsToNat b := by
      apply natCmpI_eq_zero
      simpa [idCmp, ha, hb] using h
    simp [idCmp, ha, hb, hc, hv]
  · simp [idCmp, ha, hb, hc]
  · simp [idCmp, ha, hb] at h
  · simp [idCmp, ha, hb] at h
  · simp [idCmp, ha, hb] at h
  · simp [idCmp, ha, hb] at h
  · simp [idCmp, ha, hb, hc]
  · have hs : strCmp a b = 0 := by simpa [idCmp, ha, hb] using h
    simp [idCmp, ha, hb, hc, strCmp_congr hs c]

theorem idCmp_trans_neg {a b c : List Char}
    (h1 : idCmp a b = -1) (h2 : idCmp b c = -1) : idCmp a c = -1 := by
  unfold idCmp at h1 h2 ⊢
  by_cases ha : isNumericId a <;> by_cases hb : isNumericId b <;>
    by_cases hc : isNumericId c <;>
      simp only [ha, hb, hc, Bool.and_self, Bool.and_false, Bool.false_and,
        Bool.true_and, if_true, if_false, ne_eq] at h1 h2 ⊢
  · exact natCmpI_neg_iff.mpr (lt_trans (natCmpI_neg_iff.mp (by simpa using h1))
      (natCmpI_neg_iff.mp (by simpa using h2)))
  · rfl
  · simp at h2
  · rfl
  · simp at h1
  · simp at h1
  · simp at h2
  · exact strCmp_trans_neg (by simpa using h1) (by simpa using h2)

theorem idsCmp_antisym (a : List (List Char)) : ∀ b, idsCmp a b = - idsCmp b a := by
  induction a with
  | nil => intro b; cases b <;> simp [idsCmp]
  | cons x xs ih =>
    intro b
    cases b with
    | nil => simp [idsCmp]
    | cons y ys =>
      simp only [idsCmp]
      by_cases h : idCmp x y = 0
      · have h2 : idCmp y x = 0 := by
          have := idCmp_antisym x y; omega
        rw [if_pos h, if_pos h2, ih ys]
      · have h2 : ¬ idCmp y x = 0 := by
          have := idCmp_antisym x y; omega
        rw [if_neg h, if_neg h2, idCmp_antisym x y]

theorem idsCmp_trans_neg {a : List (List Char)} : ∀ {b c : List (List Char)},
    idsCmp a b = -1 → idsCmp b c = -1 → idsCmp a c = -1 := by
  induction a with
  | nil =>
    intro b c h1 h2
    cases b with
    | nil => simp [idsCmp] at h1
    | cons y ys =>
      cases c with
      | nil => simp [idsCmp] at h2
      | cons z zs => simp [idsCmp]
  | cons x xs ih =>
    intro b c h1 h2
    cases b with
    | nil => simp [idsCmp] at h1
    | cons y ys =>
      cases c with
      | nil => simp [idsCmp] at h2
      | cons z zs =>
        simp only [idsCmp] at h1 h2 ⊢
        by_cases e1 : idCmp x y = 0 <;> by_cases e2 : idCmp y z = 0
        · have e3 : idCmp x z = 0 := by rw [idCmp_congr e1]; exact e2
          simp only [e1, if_true] at h1
          simp only [e2, if_true] at h2
          simp [e3, ih h1 h2]
        · have e3 : idCmp x z = idCmp y z := idCmp_congr e1 z
          simp only [e2, if_false] at h2
          simp [e3, e2, h2]
        · have e4 : idCmp y x = idCmp z x := idCmp_congr e2 x
          have e3 : idCmp x z = idCmp x y := by
            have a1 := idCmp_antisym x z
            have a2 := idCmp_antisym x y
            omega
          simp only [e1, if_false] at h1
          rw [e3, h1] at *
          simp [e3, e1, h1]
        · simp only [e1, if_false] at h1
          simp only [e2, if_false] at h2
          have e3 : idCmp x z = -1 := idCmp_trans_neg h1 h2
          simp [e3]

theorem comparePrerelease_antisym (a b : Option String) :
    SemanticVersion.comparePrerelease a b = - SemanticVersion.comparePrerelease b a := by
  unfold SemanticVersion.comparePrerelease
  by_cases fa : optFalsy a <;> by_cases fb : optFalsy b <;> simp [fa, fb]
  exact idsCmp_antisym _ _

theorem comparePrerelease_trans_neg {a b c : Option String}
    (h1 : SemanticVersion.comparePrerelease a b = -1)
    (h2 : SemanticVersion.comparePrerelease b c = -1) :
    SemanticVersion.comparePrerelease a c = -1 := by
  unfold SemanticVersion.comparePrerelease at h1 h2 ⊢
  by_cases fa : optFalsy a <;> by_cases fb : optFalsy b <;> by_cases fc : optFalsy c <;>
    simp [fa, fb, fc] at h1 h2 ⊢
  exact idsCmp_trans_neg h1 h2

theorem compare_antisym (a b : SemanticVersion) :
    SemanticVersion.compare a b = - SemanticVersion.compare b a := by
  unfold SemanticVersion.compare
  have sg : ∀ x y : Int, Int.sign (x - y) = - Int.sign (y - x) := by
    intro x y
    rw [show x - y = -(y - x) by ring, Int.sign_neg]
  split_ifs <;> first | exact sg _ _ | omega | exact comparePrerelease_antisym _ _

theorem compare_eq_neg_one_iff (a b : SemanticVersion) :
    SemanticVersion.compare a b = -1 ↔
      (a.major < b.major ∨ (a.major = b.major ∧ (a.minor < b.minor ∨ (a.minor = b.minor ∧
        (a.patch < b.patch ∨ (a.patch = b.patch ∧
          SemanticVersion.comparePrerelease a.prerelease b.prerelease = -1)))))) := by
  unfold SemanticVersion.compare
  generalize SemanticVersion.comparePrerelease a.prerelease b.prerelease = q
  split_ifs with g1 g2 g3
  · rw [Int.sign_eq_neg_one_iff_neg]; omega
  · rw [Int.sign_eq_neg_one_iff_neg]; omega
  · rw [Int.sign_eq_neg_one_iff_neg]; omega
  · omega

theorem compare_trans_neg {a b c : SemanticVersion}
    (h1 : SemanticVersion.compare a b = -1) (h2 : SemanticVersion.compare b c = -1) :
    SemanticVersion.compare a c = -1 := by
  rw [compare_eq_neg_one_iff] at h1 h2 ⊢
  rcases h1 with m1 | ⟨em1, n1 | ⟨en1, p1 | ⟨ep1, q1⟩⟩⟩ <;>
    rcases h2 with m2 | ⟨em2, n2 | ⟨en2, p2 | ⟨ep2, q2⟩⟩⟩
  · exact Or.inl (by omega)
  · exact Or.inl (by omega)
  · exact Or.inl (by omega)
  · exact Or.inl (by omega)
  · exact Or.inl (by omega)
  · exact Or.inr ⟨by omega, Or.inl (by omega)⟩
  · exact Or.inr ⟨by omega, Or.inl (by omega)⟩
  · exact Or.inr ⟨by omega, Or.inl (by omega)⟩
  · exact Or.inl (by omega)
  · exact Or.inr ⟨by omega, Or.inl (by omega)⟩
  · exact Or.inr ⟨by omega, Or.inr ⟨by omega, Or.inl (by omega)⟩⟩
  · exact Or.inr ⟨by omega, Or.inr ⟨by omega, Or.inl (by omega)⟩⟩
  · exact Or.inl (by omega)
  · exact Or.inr ⟨by omega, Or.inl (by omega)⟩
  · exact Or.inr ⟨by omega, Or.inr ⟨by omega, Or.inl (by omega)⟩⟩
  · exact Or.inr ⟨by omega, Or.inr ⟨by omega, Or.inr
      ⟨by omega, comparePrerelease_trans_neg q1 q2⟩⟩⟩

/-- Claim C1: `SemanticVersion.compare` is a strict total order modulo buildmetadata:
it is antisymmetric (`compare a b = -compare b a`) and transitive, it orders the chain
1.0.0-alpha < 1.0.0-alpha.1 < 1.0.0-alpha.beta < 1.0.0-beta < 1.0.0-beta.2
< 1.0.0-beta.11 < 1.0.0-rc.1 < 1.0.0, and build metadata never affects the result. -/
theorem claimC1_compare_order :
    (∀ a b : SemanticVersion, SemanticVersion.compare a b = - SemanticVersion.compare b a) ∧
    (∀ a b c : SemanticVersion, SemanticVersion.compare a b = -1 →
      SemanticVersion.compare b c = -1 → SemanticVersion.compare a c = -1) ∧
    (∀ (a b : SemanticVersion) (m1 m2 : Option String),
      SemanticVersion.compare { a with buildmetadata := m1 } { b with buildmetadata := m2 } =
        SemanticVersion.compare a b) ∧
    (SemanticVersion.compare ⟨1,0,0,some "alpha",none⟩ ⟨1,0,0,some "alpha.1",none⟩ = -1 ∧
     SemanticVersion.compare ⟨1,0,0,some "alpha.1",none⟩ ⟨1,0,0,some "alpha.beta",none⟩ = -1 ∧
     SemanticVersion.compare ⟨1,0,0,some "alpha.beta",none⟩ ⟨1,0,0,some "beta",none⟩ = -1 ∧
     SemanticVersion.compare ⟨1,0,0,some "beta",none⟩ ⟨1,0,0,some "beta.2",none⟩ = -1 ∧
     SemanticVersion.compare ⟨1,0,0,some "beta.2",none⟩ ⟨1,0,0,some "beta.11",none⟩ = -1 ∧
     SemanticVersion.compare ⟨1,0,0,some "beta.11",none⟩ ⟨1,0,0,some "rc.1",none⟩ = -1 ∧
     SemanticVersion.compare ⟨1,0,0,some "rc.1",none⟩ ⟨1,0,0,none,none⟩ = -1) := by
  refine ⟨compare_antisym, fun a b c => compare_trans_neg, ?_, by decide⟩
  intro a b m1 m2
  simp [SemanticVersion.compare]

/-- Concrete instantiation of the transitivity part of C1. -/
theorem claimC1_compare_order_witness :
    SemanticVersion.compare ⟨1,0,0,some "alpha",none⟩ ⟨1,0,0,some "beta",none⟩ = -1 :=
  claimC1_compare_order.2.1 ⟨1,0,0,some "alpha",none⟩ ⟨1,0,0,some "alpha.1",none⟩
    ⟨1,0,0,some "beta",none⟩ (by decide) (by decide)

theorem strCmp_refl (a : List Char) : strCmp a a = 0 := by
  induction a with
  | nil => rfl
  | cons x xs ih => simp [strCmp, ih]

theorem idCmp_refl (a : List Char) : idCmp a a = 0 := by
  by_cases ha : isNumericId a
  · simp [idCmp, ha, natCmpI]
  · simp [idCmp, ha, strCmp_refl]

theorem idsCmp_refl (l : List (List Char)) : idsCmp l l = 0 := by
  induction l with
  | nil => rfl
  | cons x xs ih => simp [idsCmp, idCmp_refl, ih]

theorem comparePrerelease_refl (p : Option String) :
    SemanticVersion.comparePrerelease p p = 0 := by
  by_cases hp : optFalsy p <;> simp [SemanticVersion.comparePrerelease, hp, idsCmp_refl]

theorem compare_refl (v : SemanticVersion) : SemanticVersion.compare v v = 0 := by
  simp [SemanticVersion.compare, comparePrerelease_refl]

theorem isEmpty_false_of_ne {s : String} (h : s ≠ "") : s.isEmpty = false := by
  rcases he : s.isEmpty with _ | _
  · rfl
  · exact absurd ((String.isEmpty_iff s).mp he) h

/-- Claim C10: `comparePrerelease` treats an empty-string prerelease exactly like an
absent one: for every non-empty prerelease string p, `comparePrerelease "" p = 1` and
`comparePrerelease p "" = -1`, and `comparePrerelease "" "" = 0`; a version carrying
an empty prerelease compares as a full release (same result as an absent prerelease
against any opponent). -/
theorem claimC10_empty_prerelease :
    (∀ p : String, p ≠ "" →
      SemanticVersion.comparePrerelease (some "") (some p) = 1 ∧
      SemanticVersion.comparePrerelease (some p) (some "") = -1) ∧
    SemanticVersion.comparePrerelease (some "") (some "") = 0 ∧
    (∀ q : Option String,
      SemanticVersion.comparePrerelease (some "") q =
        SemanticVersion.comparePrerelease none q ∧
      SemanticVersion.comparePrerelease q (some "") =
        SemanticVersion.comparePrerelease q none) := by
  have hfe : optFalsy (some "") = true := by decide
  have hfn : optFalsy none = true := rfl
  refine ⟨?_, by decide, ?_⟩
  · intro p hp
    have hf : optFalsy (some p) = false := by
      simp [optFalsy, isEmpty_false_of_ne hp]
    constructor <;>
      simp [SemanticVersion.comparePrerelease, hfe, hf]
  · intro q
    constructor <;> simp [SemanticVersion.comparePrerelease, hfe, hfn]

/-- Concrete instantiation of C10 at p = "alpha". -/
theorem claimC10_empty_prerelease_witness :
    SemanticVersion.comparePrerelease (some "") (some "alpha") = 1 ∧
    SemanticVersion.comparePrerelease (some "alpha") (some "") = -1 :=
  claimC10_empty_prerelease.1 "alpha" (by decide)

/-- Claim C9 counterexample: the constructor accepts an empty prerelease string even
though the empty string does not match the prerelease grammar — JS truthiness skips
the check for `""`, so no error is thrown. -/
theorem claimC9_counterexample :
    mkSemanticVersion 1 0 0 (some "") none = .ok ⟨1, 0, 0, some "", none⟩ ∧
    validPre "" = false := by
  constructor
  · rfl
  · decide

/-- Claim C9 (amended): a truthy (nonempty) prerelease string failing the grammar makes
construction throw the prerelease validation error; with the prerelease falsy or valid,
a truthy buildmetadata string failing its grammar throws the buildmetadata validation
error; grammar-valid, empty or absent arguments construct the instance unchanged. -/
theorem claimC9_constructor_validation :
    ∀ (major minor patch : Int) (p b : Option String),
      (∀ s, p = some s → s ≠ "" → validPre s = false →
        mkSemanticVersion major minor patch p b =
          .error ("Invalid prerelease format: " ++ s)) ∧
      ((optFalsy p = true ∨ validPre (p.getD "") = true) →
        ∀ t, b = some t → t ≠ "" → validBuild t = false →
          mkSemanticVersion major minor patch p b =
            .error ("Invalid build metadata format: " ++ t)) ∧
      ((optFalsy p = true ∨ validPre (p.getD "") = true) →
       (optFalsy b = true ∨ validBuild (b.getD "") = true) →
        mkSemanticVersion major minor patch p b = .ok ⟨major, minor, patch, p, b⟩) := by
  intro major minor patch p b
  refine ⟨?_, ?_, ?_⟩
  · rintro s rfl hs hv
    have hf : optFalsy (some s) = false := by
      simp [optFalsy, isEmpty_false_of_ne hs]
    simp [mkSemanticVersion, hf, hv]
  · rintro hp t rfl ht hv
    have hf : optFalsy (some t) = false := by
      simp [optFalsy, isEmpty_false_of_ne ht]
    rcases hp with hp | hp
    · simp [mkSemanticVersion, hp, hf, hv]
    · simp [mkSemanticVersion, hp, hf, hv]
  · intro hp hb
    rcases hp with hp | hp <;> rcases hb with hb | hb <;>
      simp [mkSemanticVersion, hp, hb]

/-- Concrete instantiation of C9: a malformed nonempty prerelease is rejected and a
fully valid construction succeeds. -/
theorem claimC9_constructor_validation_witness :
    mkSemanticVersion 1 0 0 (some "bad..x") none =
      .error ("Invalid prerelease format: " ++ "bad..x") ∧
    mkSemanticVersion 1 2 3 (some "rc.1") (some "b07") =
      .ok ⟨1, 2, 3, some "rc.1", some "b07"⟩ :=
  ⟨(claimC9_constructor_validation 1 0 0 (some "bad..x") none).1 "bad..x" rfl
      (by decide) (by decide),
   (claimC9_constructor_validation 1 2 3 (some "rc.1") (some "b07")).2.2
      (Or.inr (by decide)) (Or.inr (by decide))⟩

/-- Claim C7 counterexample: the original claim says every type outside the ten
recognized tags yields none, but the title "toString: x" — whose type is none of the
ten (`lookupType` misses it) — yields a defined record: JS `in` finds `toString` on
`Object.prototype`, so the returned record carries the inherited function as its
impact. -/
theorem claimC7_counterexample :
    lookupType "toString" = none ∧
    ParseConventionalTitle "toString: x" ≠ none ∧
    ParseConventionalTitle "toString: x" =
      some ⟨"toString", JsImpact.inherited "toString"⟩ := by
  refine ⟨by decide, ?_, by decide⟩
  decide

/-- Claim C7 (amended): `ParseConventionalTitle` returns none for every title that does
not match the conventional-commit pattern; for a matched title the type is accepted
iff `type in TypeToImpactMapping` holds — case-sensitively the ten own keys, mapped
docs/style/test/chore/build/ci NOIMPACT, refactor/fix/perf PATCH, feat MINOR, with
`!` forcing MAJOR, but also every property name inherited from `Object.prototype`
(toString, constructor, valueOf, ...), whose record stores the inherited member
instead of an enum value unless `!` forces MAJOR; every other type yields none. -/
theorem claimC7_title_parsing :
    (∀ title, matchConventionalTitle title = none → ParseConventionalTitle title = none) ∧
    (∀ title ty sc bang desc, matchConventionalTitle title = some (ty, sc, bang, desc) →
      ParseConventionalTitle title =
        (if jsInMapping ty then
          some ⟨ty, if bang then JsImpact.num Impact.MAJOR else indexMapping ty⟩
         else none)) ∧
    (∀ ty, jsInMapping ty = true ↔
      (lookupType ty).isSome = true ∨ ty ∈ objectPrototypeKeys) ∧
    ParseConventionalTitle "Feat: x" = none ∧
    ParseConventionalTitle "feat-prod: x" = none ∧
    ParseConventionalTitle "unknown: x" = none ∧
    ParseConventionalTitle "not conventional" = none ∧
    ParseConventionalTitle "docs: x" = some ⟨"docs", .num .NOIMPACT⟩ ∧
    ParseConventionalTitle "style: x" = some ⟨"style", .num .NOIMPACT⟩ ∧
    ParseConventionalTitle "test: x" = some ⟨"test", .num .NOIMPACT⟩ ∧
    ParseConventionalTitle "chore: x" = some ⟨"chore", .num .NOIMPACT⟩ ∧
    ParseConventionalTitle "build: x" = some ⟨"build", .num .NOIMPACT⟩ ∧
    ParseConventionalTitle "ci: x" = some ⟨"ci", .num .NOIMPACT⟩ ∧
    ParseConventionalTitle "refactor: x" = some ⟨"refactor", .num .PATCH⟩ ∧
    ParseConventionalTitle "fix: x" = some ⟨"fix", .num .PATCH⟩ ∧
    ParseConventionalTitle "perf: x" = some ⟨"perf", .num .PATCH⟩ ∧
    ParseConventionalTitle "feat: x" = some ⟨"feat", .num .MINOR⟩ ∧
    ParseConventionalTitle "chore!: x" = some ⟨"chore", .num .MAJOR⟩ ∧
    ParseConventionalTitle "feat(api)!: x" = some ⟨"feat", .num .MAJOR⟩ ∧
    ParseConventionalTitle "constructor!: x" = some ⟨"constructor", .num .MAJOR⟩ ∧
    ParseConventionalTitle "valueOf: x" = some ⟨"valueOf", .inherited "valueOf"⟩ := by
  refine ⟨?_, ?_, ?_, ?_⟩
  · intro title h
    simp [ParseConventionalTitle, h]
  · intro title ty sc bang desc h
    simp [ParseConventionalTitle, h]
  · intro ty
    simp [jsInMapping, lookupType, List.any_eq_true, List.find?_isSome]
  · decide

/-- Concrete instantiation of C7 through its general clause. -/
theorem claimC7_title_parsing_witness :
    ParseConventionalTitle "feat(ui)!: redo" = some ⟨"feat", JsImpact.num Impact.MAJOR⟩ :=
  (claimC7_title_parsing.2.1 "feat(ui)!: redo" "feat" (some "ui") true "redo"
    (by decide)).trans (by decide)

/-- Claim C3: when the PR item classifies and at least one commit classifies and the two
impacts differ, the final impact is the PR classification and a warning is present;
when they agree, or only the PR impact exists, the final impact is the PR
classification with no warning. -/
theorem claimC3_aggregation_policy :
    ∀ (pr : PullRequest) (commits : List Commit) (pi : ParsedCommitInfo) (m : Impact),
      ((getImpactFromGithub pr commits).prImpact = some pi →
        (getImpactFromGithub pr commits).maxCommitImpact = some (JsMaxVal.val m) →
        pi.impact ≠ JsImpact.num m →
        (getImpactFromGithub pr commits).finalImpact = some pi ∧
        (getImpactFromGithub pr commits).warning ≠ none) ∧
      ((getImpactFromGithub pr commits).prImpact = some pi →
        (getImpactFromGithub pr commits).maxCommitImpact = some (JsMaxVal.val m) →
        pi.impact = JsImpact.num m →
        (getImpactFromGithub pr commits).finalImpact = some pi ∧
        (getImpactFromGithub pr commits).warning = none) ∧
      ((getImpactFromGithub pr commits).prImpact = some pi →
        (getImpactFromGithub pr commits).maxCommitImpact = none →
        (getImpactFromGithub pr commits).finalImpact = some pi ∧
        (getImpactFromGithub pr commits).warning = none) := by
  intro pr commits pi m
  unfold getImpactFromGithub
  rcases hpx : getConventionalImpact pr.title pr.body with _ | pi2 <;>
    rcases hmx : maxCommitImpactOf
      (commits.filterMap fun c => getConventionalImpact c.title c.body) with _ | m2 <;>
    simp only [hpx, hmx]
  · exact ⟨by intro h; simp at h, by intro h; simp at h, by intro h; simp at h⟩
  · exact ⟨by intro h; simp at h, by intro h; simp at h, by intro h; simp at h⟩
  · refine ⟨by intro _ h; simp at h, by intro _ h; simp at h, ?_⟩
    intro h _
    simp only [Option.some.injEq] at h
    subst h
    simp
  · rcases m2 with mv | _
    · by_cases hne : pi2.impact = JsImpact.num mv
      · have hc : jsLooseNe pi2.impact (JsMaxVal.val mv) = false := by
          rw [hne]
          simp [jsLooseNe]
        rw [if_neg (by simp [hc])]
        refine ⟨?_, ?_, by intro _ h; simp at h⟩
        · intro h1 h2 h3
          simp only [Option.some.injEq, JsMaxVal.val.injEq] at h1 h2
          subst h1; subst h2
          exact absurd hne h3
        · intro h1 h2 _
          simp only [Option.some.injEq] at h1
          subst h1
          simp
      · have hc : jsLooseNe pi2.impact (JsMaxVal.val mv) = true := by
          cases hpi : pi2.impact with
          | num i =>
            simp only [jsLooseNe, decide_eq_true_eq]
            intro he
            exact hne (by rw [hpi, he])
          | inherited s => rfl
        rw [if_pos hc]
        refine ⟨?_, ?_, by intro _ h; simp at h⟩
        · intro h1 _ _
          simp only [Option.some.injEq] at h1
          subst h1
          simp
        · intro h1 h2 h3
          simp only [Option.some.injEq, JsMaxVal.val.injEq] at h1 h2
          subst h1; subst h2
          exact absurd h3 hne
    · rw [if_pos (show jsLooseNe pi2.impact JsMaxVal.nan = true by
        cases pi2.impact <;> rfl)]
      refine ⟨?_, ?_, ?_⟩ <;>
        · intro _ h2
          simp at h2

/-- Concrete instantiation of C3: PR "fix: y" against commit "feat!: z". -/
theorem claimC3_aggregation_policy_witness :
    (getImpactFromGithub ⟨"fix: y", none, [], false⟩
        [⟨"s", "feat!: z", none⟩]).finalImpact =
      some ⟨"fix", JsImpact.num Impact.PATCH⟩ ∧
    (getImpactFromGithub ⟨"fix: y", none, [], false⟩
        [⟨"s", "feat!: z", none⟩]).warning ≠ none :=
  (claimC3_aggregation_policy ⟨"fix: y", none, [], false⟩ [⟨"s", "feat!: z", none⟩]
    ⟨"fix", JsImpact.num Impact.PATCH⟩ Impact.MAJOR).1 (by decide) (by decide) (by decide)

/-- Claim C4 counterexample: on PR title "chore: trivial" with commits "docs: x" and
"fix: y", the code does NOT return PATCH without warning — "chore" classifies to a
defined NOIMPACT record, which differs from the maximum commit impact PATCH, so the
conflict branch fires: final impact is the PR's NOIMPACT classification and a warning
is set. -/
theorem claimC4_counterexample :
    (getImpactFromGithub ⟨"chore: trivial", some "", [], false⟩
        [⟨"a", "docs: x", none⟩, ⟨"b", "fix: y", none⟩]).finalImpact =
      some ⟨"chore", JsImpact.num Impact.NOIMPACT⟩ ∧
    (getImpactFromGithub ⟨"chore: trivial", some "", [], false⟩
        [⟨"a", "docs: x", none⟩, ⟨"b", "fix: y", none⟩]).warning ≠ none ∧
    ¬((getImpactFromGithub ⟨"chore: trivial", some "", [], false⟩
        [⟨"a", "docs: x", none⟩, ⟨"b", "fix: y", none⟩]).finalImpact.map
          (fun c => c.impact) = some (JsImpact.num Impact.PATCH) ∧
      (getImpactFromGithub ⟨"chore: trivial", some "", [], false⟩
        [⟨"a", "docs: x", none⟩, ⟨"b", "fix: y", none⟩]).warning = none) := by
  decide

/-- Claim C4 (amended): on PR title "chore: trivial" with commits "docs: x" and "fix: y",
the final impact is the PR title's NOIMPACT classification and a warning is present
(the PR title classifies, so it wins over the commit maximum PATCH with a conflict
warning); the max-commit impact wins without warning only when the PR title does not
classify at all, as with the unparsable title "chore trivial". -/
theorem claimC4_aggregation_example :
    ((getImpactFromGithub ⟨"chore: trivial", some "", [], false⟩
        [⟨"a", "docs: x", none⟩, ⟨"b", "fix: y", none⟩]).finalImpact =
      some ⟨"chore", JsImpact.num Impact.NOIMPACT⟩ ∧
     (getImpactFromGithub ⟨"chore: trivial", some "", [], false⟩
        [⟨"a", "docs: x", none⟩, ⟨"b", "fix: y", none⟩]).warning ≠ none) ∧
    ((getImpactFromGithub ⟨"chore trivial", some "", [], false⟩
        [⟨"a", "docs: x", none⟩, ⟨"b", "fix: y", none⟩]).finalImpact =
      some ⟨"fix", JsImpact.num Impact.PATCH⟩ ∧
     (getImpactFromGithub ⟨"chore trivial", some "", [], false⟩
        [⟨"a", "docs: x", none⟩, ⟨"b", "fix: y", none⟩]).warning = none) := by
  decide

/-- Claim C6: a merged PR never gets a prerelease label regardless of its labels; an
unmerged PR with a case-insensitive `release-candidate` label gets `rc` followed by
`nextRcIndex` of the impact-bumped baseline over the fetched candidate tag names;
concretely, baseline 1.2.0 with impact NOIMPACT over fetched candidates
1.2.0-rc.0 and 1.2.0-rc.1 yields "rc2". -/
theorem claimC6_release_candidates :
    (∀ (pr : PullRequest) (impact : Impact) (last : SemanticVersion)
        (fetched : List SemanticVersion), pr.merged = true →
        handle_release_candidates pr impact last fetched = none) ∧
    (∀ (pr : PullRequest) (impact : Impact) (last : SemanticVersion)
        (fetched : List SemanticVersion), pr.merged = false →
        pr.labels.any (fun label => strToLower label.name == "release-candidate") = true →
        handle_release_candidates pr impact last fetched =
          some ⟨'r' :: 'c' :: intToStrL (SemanticVersion.nextRcIndex
            (last.bump impact none none) (fetched.map SemanticVersion.toString))⟩) ∧
    handle_release_candidates ⟨"t", none, [⟨"Release-Candidate"⟩], false⟩ Impact.NOIMPACT
      ⟨1, 2, 0, none, none⟩ [⟨1, 2, 0, some "rc.0", none⟩, ⟨1, 2, 0, some "rc.1", none⟩] =
      some "rc2" := by
  refine ⟨?_, ?_, by decide⟩
  · intro pr impact last fetched hm
    simp [handle_release_candidates, hm]
  · intro pr impact last fetched hm hl
    simp [handle_release_candidates, hm, hl]

/-- Concrete instantiation of C6: a merged PR with the label still gets none. -/
theorem claimC6_release_candidates_witness :
    handle_release_candidates ⟨"t", none, [⟨"release-candidate"⟩], true⟩ Impact.PATCH
      ⟨1, 2, 0, none, none⟩ [] = none :=
  claimC6_release_candidates.1 ⟨"t", none, [⟨"release-candidate"⟩], true⟩ Impact.PATCH
    ⟨1, 2, 0, none, none⟩ [] rfl

theorem maxFoldI_nil (m : Int) : maxFoldI m [] = m := rfl

theorem maxFoldI_cons (m : Int) (n : Nat) (l : List Nat) :
    maxFoldI m (n :: l) = maxFoldI (max m (n : Int)) l := rfl

theorem maxFoldI_append (m : Int) (l1 l2 : List Nat) :
    maxFoldI m (l1 ++ l2) = maxFoldI (maxFoldI m l1) l2 := by
  simp [maxFoldI, List.foldl_append]

theorem scanRcParts_cons (p : List Char) (rest : List (List Char)) (m : Int) :
    scanRcParts (p :: rest) m =
      (match rcInlineVal p with
       | some n => scanRcParts rest (max m (n : Int))
       | none =>
         if isRcBare p then
           match rest with
           | [] => max m 0
           | q :: _ =>
             if !q.isEmpty && q.all isDigitC then
               scanRcParts rest (max m ((digitsToNat q : Int)))
             else scanRcParts rest m
         else scanRcParts rest m) := rfl

theorem rcContribsSpec_cons (p : List Char) (rest : List (List Char)) :
    rcContribsSpec (p :: rest) =
      (match rcInlineVal p with
       | some n => [n]
       | none =>
         if isRcBare p then
           match rest with
           | [] => [0]
           | q :: _ => if !q.isEmpty && q.all isDigitC then [digitsToNat q] else []
         else []) ++ rcContribsSpec rest := rfl

theorem scanRcParts_eq_foldl (parts : List (List Char)) : ∀ m : Int,
    scanRcParts parts m = maxFoldI m (rcContribsSpec parts) := by
  induction parts with
  | nil => intro m; rfl
  | cons p rest ih =>
    intro m
    rw [scanRcParts_cons, rcContribsSpec_cons]
    rcases hi : rcInlineVal p with _ | n
    · by_cases hb : isRcBare p = true
      · cases rest with
        | nil =>
          simp only [hi, hb, if_true]
          rw [show rcContribsSpec ([] : List (List Char)) = [] from rfl, List.append_nil,
            maxFoldI_cons, maxFoldI_nil]
          norm_num
        | cons q qs =>
          by_cases hq : (!q.isEmpty && q.all isDigitC) = true
          · simp only [hi, hb, hq, if_true]
            rw [ih, List.singleton_append, maxFoldI_cons]
          · simp only [hi, hb, hq, if_true, if_false, Bool.false_eq_true]
            rw [ih, List.nil_append]
      · simp only [hi, Bool.not_eq_true] at *
        simp only [hi, hb, Bool.false_eq_true, if_false]
        rw [ih, List.nil_append]
    · simp only [hi]
      rw [ih, List.singleton_append, maxFoldI_cons]

theorem nextRcIndex_eq_contribs (base : SemanticVersion) (tagNames : List String) :
    SemanticVersion.nextRcIndex base tagNames =
      maxFoldI (-1) ((tagNames.map (tagContribsSpec base)).flatten) + 1 := by
  unfold SemanticVersion.nextRcIndex
  congr 1
  suffices h : ∀ m : Int, tagNames.foldl (fun m name =>
      match SemanticVersion.parse name with
      | none => m
      | some parsed =>
        if parsed.major = base.major && parsed.minor = base.minor &&
            parsed.patch = base.patch && !optFalsy parsed.prerelease then
          scanRcParts (splitOnP isSepC (parsed.prerelease.getD "").data) m
        else m) m =
      maxFoldI m ((tagNames.map (tagContribsSpec base)).flatten) by
    exact h (-1)
  induction tagNames with
  | nil => intro m; rfl
  | cons name rest ih =>
    intro m
    rw [List.foldl_cons, List.map_cons, List.flatten_cons, maxFoldI_append]
    have hstep : (match SemanticVersion.parse name with
        | none => m
        | some parsed =>
          if parsed.major = base.major && parsed.minor = base.minor &&
              parsed.patch = base.patch && !optFalsy parsed.prerelease then
            scanRcParts (splitOnP isSepC (parsed.prerelease.getD "").data) m
          else m) = maxFoldI m (tagContribsSpec base name) := by
      rcases hp : SemanticVersion.parse name with _ | parsed
      · simp [tagContribsSpec, hp, maxFoldI_nil]
      · by_cases hc : (parsed.major = base.major && parsed.minor = base.minor &&
            parsed.patch = base.patch && !optFalsy parsed.prerelease) = true
        · simp [tagContribsSpec, hp, hc, scanRcParts_eq_foldl]
        · simp only [Bool.not_eq_true] at hc
          simp [tagContribsSpec, hp, hc, maxFoldI_nil]
    rw [hstep, ih]

/-- Claim C5: `nextRcIndex` returns the running maximum of the accepted rc token values
plus one (0 when nothing contributes), where only tags parsing as semver with a
prerelease and matching the base on major.minor.patch are considered and tokens
contribute per the strict rc forms (`rc<digits>` its number; bare `rc` 0 when last or
the next token's value when purely numeric; everything else nothing); with the listed
concrete inputs it returns the listed values, and `rcX`/`rc.beta` contribute nothing. -/
theorem claimC5_nextRcIndex :
    (∀ (base : SemanticVersion) (tagNames : List String),
      SemanticVersion.nextRcIndex base tagNames =
        maxFoldI (-1) ((tagNames.map (tagContribsSpec base)).flatten) + 1) ∧
    (∀ base : SemanticVersion, SemanticVersion.nextRcIndex base [] = 0) ∧
    SemanticVersion.nextRcIndex ⟨1, 2, 3, none, none⟩ ["v1.2.3-rc0", "v1.2.3"] = 1 ∧
    SemanticVersion.nextRcIndex ⟨2, 0, 0, none, none⟩
      ["v2.0.0-rc0", "v2.0.0-rc2", "v2.0.0-rc1"] = 3 ∧
    SemanticVersion.nextRcIndex ⟨1, 2, 3, none, none⟩ ["v1.2.3-rcX", "v1.2.3-rc.beta"] = 0 ∧
    SemanticVersion.nextRcIndex ⟨1, 2, 3, none, none⟩ ["v9.9.9-rc5"] = 0 :=
  ⟨nextRcIndex_eq_contribs, fun _ => rfl, by decide, by decide, by decide, by decide⟩

theorem ne_of_classBool {f : Char → Bool} {c x : Char} (h : f c = true) (hx : f x = false) :
    c ≠ x := by
  intro he
  rw [he, hx] at h
  simp at h

theorem charDigit_toNat {d : Nat} (h : d < 10) : (Char.ofNat (48 + d)).toNat = 48 + d := by
  interval_cases d <;> decide

theorem charDigit_isDigit {d : Nat} (h : d < 10) : isDigitC (Char.ofNat (48 + d)) = true := by
  interval_cases d <;> decide

theorem charDigit_ne_zeroChar {d : Nat} (h : d < 10) (hd : d ≠ 0) :
    ¬ Char.ofNat (48 + d) = '0' := by
  interval_cases d
  · exact absurd rfl hd
  all_goals decide

theorem digitsToNat_append_digit (xs : List Char) (c : Char) :
    digitsToNat (xs ++ [c]) = 10 * digitsToNat xs + (c.toNat - 48) := by
  unfold digitsToNat
  rw [List.foldl_append]
  rfl

theorem natToDigitsAux_all (fuel : Nat) : ∀ n, n < fuel →
    ∀ c ∈ natToDigitsAux fuel n, isDigitC c = true := by
  induction fuel with
  | zero => intro n h; omega
  | succ fuel ih =>
    intro n h c hc
    unfold natToDigitsAux at hc
    by_cases hn : n = 0
    · simp [hn] at hc
    · rw [if_neg hn] at hc
      have hdiv : n / 10 < fuel := by
        have hlt : n / 10 < n := Nat.div_lt_self (Nat.pos_of_ne_zero hn) (by omega)
        omega
      rcases List.mem_append.mp hc with h1 | h2
      · exact ih (n / 10) hdiv c h1
      · have hm : n % 10 < 10 := Nat.mod_lt _ (by omega)
        simp only [List.mem_singleton] at h2
        rw [h2]
        exact charDigit_isDigit hm

theorem natToDigitsAux_val (fuel : Nat) : ∀ n, n < fuel →
    digitsToNat (natToDigitsAux fuel n) = n := by
  induction fuel with
  | zero => intro n h; omega
  | succ fuel ih =>
    intro n h
    unfold natToDigitsAux
    by_cases hn : n = 0
    · simp [hn, digitsToNat]
    · rw [if_neg hn]
      have hdiv : n / 10 < fuel := by
        have hlt : n / 10 < n := Nat.div_lt_self (Nat.pos_of_ne_zero hn) (by omega)
        omega
      have hm : n % 10 < 10 := Nat.mod_lt _ (by omega)
      rw [digitsToNat_append_digit, ih (n / 10) hdiv, charDigit_toNat hm]
      omega

theorem natToDigitsAux_head (fuel : Nat) : ∀ n, n < fuel → n ≠ 0 →
    ∃ c rest, natToDigitsAux fuel n = c :: rest ∧ ¬ c = '0' := by
  induction fuel with
  | zero => intro n h; omega
  | succ fuel ih =>
    intro n h hn
    unfold natToDigitsAux
    rw [if_neg hn]
    by_cases hd : n / 10 = 0
    · have hnil : natToDigitsAux fuel (n / 10) = [] := by
        cases fuel with
        | zero => rfl
        | succ f => simp [natToDigitsAux, hd]
      have hm : n % 10 < 10 := Nat.mod_lt _ (by omega)
      have hm0 : n % 10 ≠ 0 := by omega
      exact ⟨Char.ofNat (48 + n % 10), [], by rw [hnil]; rfl, charDigit_ne_zeroChar hm hm0⟩
    · have hdiv : n / 10 < fuel := by
        have hlt : n / 10 < n := Nat.div_lt_self (Nat.pos_of_ne_zero hn) (by omega)
        omega
      obtain ⟨c, rest, heq, hne⟩ := ih (n / 10) hdiv hd
      exact ⟨c, rest ++ [Char.ofNat (48 + n % 10)], by rw [heq]; rfl, hne⟩

theorem natToStrL_numericCore (n : Nat) : isNumericCore (natToStrL n) = true := by
  unfold natToStrL
  by_cases hn : n = 0
  · rw [if_pos hn]; decide
  · rw [if_neg hn]
    obtain ⟨c, rest, heq, hne⟩ := natToDigitsAux_head (n + 1) n (by omega) hn
    have hall := natToDigitsAux_all (n + 1) n (by omega)
    have hc : isDigitC c = true := hall c (by rw [heq]; exact List.mem_cons_self c rest)
    have hrest : rest.all isDigitC = true := by
      rw [List.all_eq_true]
      intro x hx
      exact hall x (by rw [heq]; exact List.mem_cons_of_mem c hx)
    rw [heq]
    simp [isNumericCore, hc, hrest, hne]

theorem natToStrL_val (n : Nat) : digitsToNat (natToStrL n) = n := by
  unfold natToStrL
  by_cases hn : n = 0
  · rw [if_pos hn, hn]; decide
  · rw [if_neg hn]
    exact natToDigitsAux_val (n + 1) n (by omega)

theorem isNumericCore_digits {s : List Char} (h : isNumericCore s = true) :
    ∀ c ∈ s, isDigitC c = true := by
  cases s with
  | nil => intro c hc; simp at hc
  | cons d ds =>
    simp only [isNumericCore, Bool.and_eq_true] at h
    intro c hc
    rcases List.mem_cons.mp hc with rfl | hm
    · exact h.1.1
    · exact (List.all_eq_true.mp h.1.2) c hm

theorem natToStrL_digits (n : Nat) : ∀ c ∈ natToStrL n, isDigitC c = true :=
  isNumericCore_digits (natToStrL_numericCore n)

theorem natToStrL_head (n : Nat) : ∃ c rest, natToStrL n = c :: rest ∧ isDigitC c = true := by
  rcases heq : natToStrL n with _ | ⟨c, rest⟩
  · have := natToStrL_numericCore n
    rw [heq] at this
    simp [isNumericCore] at this
  · exact ⟨c, rest, rfl, by
      have := natToStrL_digits n c (by rw [heq]; exact List.mem_cons_self c rest)
      exact this⟩

theorem splitOnP_all_false {p : Char → Bool} : ∀ {xs : List Char},
    (∀ c ∈ xs, p c = false) → splitOnP p xs = [xs] := by
  intro xs
  induction xs with
  | nil => intro _; rfl
  | cons c cs ih =>
    intro h
    have hc : p c = false := h c (List.mem_cons_self c cs)
    have hrec := ih (fun x hx => h x (List.mem_cons_of_mem c hx))
    simp [splitOnP, hc, hrec]

theorem splitOnP_append_sep {p : Char → Bool} {s : Char} (hs : p s = true) :
    ∀ {xs : List Char}, (∀ c ∈ xs, p c = false) → ∀ ys,
    splitOnP p (xs ++ s :: ys) = xs :: splitOnP p ys := by
  intro xs
  induction xs with
  | nil =>
    intro _ ys
    simp [splitOnP, hs]
  | cons c cs ih =>
    intro h ys
    have hc : p c = false := h c (List.mem_cons_self c cs)
    have hrec := ih (fun x hx => h x (List.mem_cons_of_mem c hx)) ys
    simp [splitOnP, hc, hrec]

theorem takeWhile_all_true {p : Char → Bool} : ∀ {xs : List Char},
    (∀ c ∈ xs, p c = true) → xs.takeWhile p = xs ∧ xs.dropWhile p = [] := by
  intro xs
  induction xs with
  | nil => intro _; exact ⟨rfl, rfl⟩
  | cons c cs ih =>
    intro h
    have hc : p c = true := h c (List.mem_cons_self c cs)
    have hrec := ih (fun x hx => h x (List.mem_cons_of_mem c hx))
    simp [List.takeWhile_cons, List.dropWhile_cons, hc, hrec.1, hrec.2]

theorem takeWhile_append_stop {p : Char → Bool} {s : Char} (hs : p s = false) :
    ∀ {xs : List Char}, (∀ c ∈ xs, p c = true) → ∀ ys,
    (xs ++ s :: ys).takeWhile p = xs ∧ (xs ++ s :: ys).dropWhile p = s :: ys := by
  intro xs
  induction xs with
  | nil =>
    intro _ ys
    simp [List.takeWhile_cons, List.dropWhile_cons, hs]
  | cons c cs ih =>
    intro h ys
    have hc : p c = true := h c (List.mem_cons_self c cs)
    have hrec := ih (fun x hx => h x (List.mem_cons_of_mem c hx)) ys
    simp [List.takeWhile_cons, List.dropWhile_cons, hc, hrec.1, hrec.2]

theorem splitOnP_mem_parts {p : Char → Bool} : ∀ {xs : List Char} {c : Char}, c ∈ xs →
    p c = true ∨ ∃ part ∈ splitOnP p xs, c ∈ part := by
  intro xs
  induction xs with
  | nil => intro c hc; simp at hc
  | cons d ds ih =>
    intro c hc
    by_cases hd : p d = true
    · rcases List.mem_cons.mp hc with rfl | hm
      · exact Or.inl hd
      · rcases ih hm with h1 | ⟨part, hp1, hp2⟩
        · exact Or.inl h1
        · exact Or.inr ⟨part, by simp [splitOnP, hd, hp1], hp2⟩
    · have hd2 : p d = false := by
        rcases h : p d with _ | _
        · rfl
        · exact absurd h hd
      rcases hsp : splitOnP p ds with _ | ⟨h1, t1⟩
      · exact absurd hsp (by
          have : splitOnP p ds = [ds] ∨ splitOnP p ds ≠ [] := by
            rcases ds with _ | ⟨e, es⟩
            · exact Or.inl rfl
            · right
              simp only [splitOnP]
              by_cases he : p e = true
              · simp [he]
              · have he2 : p e = false := by
                  rcases hh : p e with _ | _
                  · rfl
                  · exact absurd hh he
                rcases hsp2 : splitOnP p es with _ | _ <;> simp [he2, hsp2]
          rcases this with h | h
          · rw [h]; simp
          · exact h)
      · rcases List.mem_cons.mp hc with rfl | hm
        · exact Or.inr ⟨c :: h1, by simp [splitOnP, hd2, hsp], List.mem_cons_self c h1⟩
        · rcases ih hm with hh | ⟨part, hp1, hp2⟩
          · exact Or.inl hh
          · rw [hsp] at hp1
            rcases List.mem_cons.mp hp1 with rfl | hpt
            · exact Or.inr ⟨d :: part, by simp [splitOnP, hd2, hsp], List.mem_cons_of_mem d hp2⟩
            · exact Or.inr ⟨part, by simp [splitOnP, hd2, hsp, hpt], hp2⟩

theorem isPreId_chars {part : List Char} (h : isPreId part = true) :
    ∀ c ∈ part, isIdChar c = true := by
  intro c hc
  have h2 : isNumericCore part = true ∨ (¬part = [] ∧ ∀ x ∈ part, isIdChar x = true) ∧
      ∃ x ∈ part, isDigitC x = false := by simpa [isPreId] using h
  rcases h2 with h1 | ⟨⟨_, hall⟩, _⟩
  · have := isNumericCore_digits h1 c hc
    simp [isIdChar, this]
  · exact hall c hc

theorem validPre_chars {s : String} (h : validPre s = true) :
    ∀ c ∈ s.data, isIdChar c = true ∨ c = '.' := by
  intro c hc
  rcases splitOnP_mem_parts (p := fun x => decide (x = '.')) hc with h1 | ⟨part, hp1, hp2⟩
  · exact Or.inr (of_decide_eq_true h1)
  · exact Or.inl (isPreId_chars ((List.all_eq_true.mp h) part hp1) c hp2)

theorem validBuild_chars {s : String} (h : validBuild s = true) :
    ∀ c ∈ s.data, isIdChar c = true ∨ c = '.' := by
  intro c hc
  rcases splitOnP_mem_parts (p := fun x => decide (x = '.')) hc with h1 | ⟨part, hp1, hp2⟩
  · exact Or.inr (of_decide_eq_true h1)
  · have hb := (List.all_eq_true.mp h) part hp1
    exact Or.inl ((List.all_eq_true.mp (Bool.and_eq_true_iff.mp hb).2) c hp2)

theorem validPre_ne_empty {s : String} (h : validPre s = true) : s.isEmpty = false := by
  apply isEmpty_false_of_ne
  rintro rfl
  exact absurd h (by decide)

theorem validBuild_ne_empty {s : String} (h : validBuild s = true) : s.isEmpty = false := by
  apply isEmpty_false_of_ne
  rintro rfl
  exact absurd h (by decide)

theorem parseMMP_roundtrip (a b c : Nat) :
    parseMMP (natToStrL a ++ ('.' :: (natToStrL b ++ ('.' :: natToStrL c)))) =
      some (a, b, c) := by
  have hdot : (fun x => decide (x = '.')) '.' = true := by decide
  have hfree : ∀ n : Nat, ∀ ch ∈ natToStrL n, (fun x => decide (x = '.')) ch = false := by
    intro n ch hch
    exact decide_eq_false (ne_of_classBool (natToStrL_digits n ch hch) (by decide))
  unfold parseMMP
  rw [splitOnP_append_sep hdot (hfree a), splitOnP_append_sep hdot (hfree b),
    splitOnP_all_false (hfree c)]
  simp [natToStrL_numericCore, natToStrL_val]

theorem mmp_chars (a b c : Nat) :
    ∀ ch ∈ (natToStrL a ++ ('.' :: (natToStrL b ++ ('.' :: natToStrL c))) : List Char),
      isDigitC ch = true ∨ ch = '.' := by
  intro ch h
  rcases List.mem_append.mp h with h | h
  · exact Or.inl (natToStrL_digits a ch h)
  rcases List.mem_cons.mp h with rfl | h
  · exact Or.inr rfl
  rcases List.mem_append.mp h with h | h
  · exact Or.inl (natToStrL_digits b ch h)
  rcases List.mem_cons.mp h with rfl | h
  · exact Or.inr rfl
  exact Or.inl (natToStrL_digits c ch h)

theorem parseCoreStr_roundtrip (a b c : Nat) (preOpt : Option String)
    (hpre : ∀ s, preOpt = some s → validPre s = true) (bm : Option String) :
    parseCoreStr (natToStrL a ++ ('.' :: (natToStrL b ++ ('.' :: (natToStrL c ++
      (match preOpt with | none => [] | some s => '-' :: s.data)))))) bm =
      some ⟨(a : Int), (b : Int), (c : Int), preOpt, bm⟩ := by
  have hnd : ∀ ch : Char, isDigitC ch = true ∨ ch = '.' →
      (fun x => decide (x ≠ '-')) ch = true := by
    rintro ch (h | rfl)
    · simpa using ne_of_classBool h (by decide)
    · decide
  rcases preOpt with _ | s
  · have hshape : (natToStrL a ++ ('.' :: (natToStrL b ++ ('.' :: (natToStrL c ++
        (match (none : Option String) with | none => [] | some s => '-' :: s.data)))))
        : List Char) =
        natToStrL a ++ ('.' :: (natToStrL b ++ ('.' :: natToStrL c))) := by
      simp
    rw [hshape]
    have htw := takeWhile_all_true (p := fun x => decide (x ≠ '-'))
      (fun ch hch => hnd ch (mmp_chars a b c ch hch))
    unfold parseCoreStr
    rw [htw.1, htw.2, parseMMP_roundtrip]
  · obtain ⟨sd⟩ := s
    have hshape : (natToStrL a ++ ('.' :: (natToStrL b ++ ('.' :: (natToStrL c ++
        (match (some (String.mk sd) : Option String) with
         | none => [] | some s => '-' :: s.data)))))
        : List Char) =
        (natToStrL a ++ ('.' :: (natToStrL b ++ ('.' :: natToStrL c)))) ++ '-' :: sd := by
      simp
    rw [hshape]
    have htw := takeWhile_append_stop (p := fun x => decide (x ≠ '-')) (s := '-') (by decide)
      (fun ch hch => hnd ch (mmp_chars a b c ch hch)) sd
    unfold parseCoreStr
    rw [htw.1, htw.2, parseMMP_roundtrip]
    have hv : validPre (String.mk sd) = true := hpre (String.mk sd) rfl
    have hv2 : (splitOnP (fun x => decide (x = '.')) sd).all isPreId = true := hv
    simp [hv2]

theorem parseCoreStr_roundtrip_none (a b c : Nat) (bm : Option String) :
    parseCoreStr (natToStrL a ++ ('.' :: (natToStrL b ++ ('.' :: natToStrL c)))) bm =
      some ⟨(a : Int), (b : Int), (c : Int), none, bm⟩ := by
  have h := parseCoreStr_roundtrip a b c none (fun s hs => by cases hs) bm
  simpa using h

theorem parseCoreStr_roundtrip_some (a b c : Nat) (sd : List Char)
    (hv : validPre (String.mk sd) = true) (bm : Option String) :
    parseCoreStr (natToStrL a ++ ('.' :: (natToStrL b ++ ('.' :: (natToStrL c ++
      '-' :: sd))))) bm =
      some ⟨(a : Int), (b : Int), (c : Int), some (String.mk sd), bm⟩ := by
  have h := parseCoreStr_roundtrip a b c (some (String.mk sd))
    (fun s hs => by cases hs; exact hv) bm
  simpa using h

theorem parse_mk_no_build (core : List Char) (hne : core.head? ≠ some 'v')
    (hfree : ∀ c ∈ core, (fun x => decide (x = '+')) c = false) :
    SemanticVersion.parse (String.mk core) = parseCoreStr core none := by
  simp only [SemanticVersion.parse]
  rw [if_neg hne, splitOnP_all_false hfree]

theorem parse_mk_with_build (core td : List Char)
    (hne : (core ++ '+' :: td).head? ≠ some 'v')
    (hcorefree : ∀ c ∈ core, (fun x => decide (x = '+')) c = false)
    (htd : ∀ c ∈ td, (fun x => decide (x = '+')) c = false)
    (hb : (splitOnP (fun x => decide (x = '.')) td).all isBuildId = true) :
    SemanticVersion.parse (String.mk (core ++ '+' :: td)) =
      parseCoreStr core (some (String.mk td)) := by
  simp only [SemanticVersion.parse]
  rw [if_neg hne, splitOnP_append_sep (by decide) hcorefree td, splitOnP_all_false htd]
  simp [hb]

/-- Claim C2: round-trip — for every SemanticVersion built from non-negative
major/minor/patch and optional grammar-valid prerelease and buildmetadata,
`parse (toString v)` succeeds and yields exactly `v`, hence a version equal to `v`
in the sense of `compare` (which ignores buildmetadata). -/
theorem claimC2_roundtrip :
    ∀ v : SemanticVersion, 0 ≤ v.major → 0 ≤ v.minor → 0 ≤ v.patch →
      (∀ s, v.prerelease = some s → validPre s = true) →
      (∀ s, v.buildmetadata = some s → validBuild s = true) →
      SemanticVersion.parse (SemanticVersion.toString v) = some v ∧
      (∀ w, SemanticVersion.parse (SemanticVersion.toString v) = some w →
        SemanticVersion.compare w v = 0) := by
  rintro ⟨ma, mi, pa, preOpt, bmOpt⟩ hma hmi hpa hpre hbuild
  simp only [] at hma hmi hpa hpre hbuild
  have hia : intToStrL ma = natToStrL ma.toNat := by
    unfold intToStrL; rw [if_neg (by omega)]
  have hib : intToStrL mi = natToStrL mi.toNat := by
    unfold intToStrL; rw [if_neg (by omega)]
  have hic : intToStrL pa = natToStrL pa.toNat := by
    unfold intToStrL; rw [if_neg (by omega)]
  obtain ⟨cA, restA, hAeq, hAdig⟩ := natToStrL_head ma.toNat
  have hnv : ¬ cA = 'v' := ne_of_classBool hAdig (by decide)
  have hcast : ((ma.toNat : Int) = ma ∧ (mi.toNat : Int) = mi) ∧ (pa.toNat : Int) = pa :=
    ⟨⟨Int.toNat_of_nonneg hma, Int.toNat_of_nonneg hmi⟩, Int.toNat_of_nonneg hpa⟩
  have hmmpfree : ∀ c ∈ (natToStrL ma.toNat ++
      ('.' :: (natToStrL mi.toNat ++ ('.' :: natToStrL pa.toNat))) : List Char),
      (fun x => decide (x = '+')) c = false := by
    intro c hc
    apply decide_eq_false
    rcases mmp_chars ma.toNat mi.toNat pa.toNat c hc with h | rfl
    · exact ne_of_classBool h (by decide)
    · decide
  have hmain : SemanticVersion.parse
      (SemanticVersion.toString ⟨ma, mi, pa, preOpt, bmOpt⟩) =
      some ⟨ma, mi, pa, preOpt, bmOpt⟩ := by
    rcases preOpt with _ | s <;> rcases bmOpt with _ | t
    · -- no prerelease, no buildmetadata
      have hL : SemanticVersion.toString ⟨ma, mi, pa, none, none⟩ =
          String.mk (natToStrL ma.toNat ++
            ('.' :: (natToStrL mi.toNat ++ ('.' :: natToStrL pa.toNat)))) := by
        simp [SemanticVersion.toString, SemanticVersion.toStringL, hia, hib, hic, optFalsy]
      rw [hL, parse_mk_no_build _ (by rw [hAeq]; simp [List.cons_append, hnv]) hmmpfree,
        parseCoreStr_roundtrip_none]
      simp [hcast.1.1, hcast.1.2, hcast.2]
    · -- no prerelease, with buildmetadata
      obtain ⟨td⟩ := t
      have hbt : validBuild (String.mk td) = true := hbuild (String.mk td) rfl
      have htdfree : ∀ c ∈ td, (fun x => decide (x = '+')) c = false := by
        intro c hc
        apply decide_eq_false
        rcases validBuild_chars hbt c hc with h | rfl
        · exact ne_of_classBool h (by decide)
        · decide
      have hL : SemanticVersion.toString ⟨ma, mi, pa, none, some (String.mk td)⟩ =
          String.mk ((natToStrL ma.toNat ++
            ('.' :: (natToStrL mi.toNat ++ ('.' :: natToStrL pa.toNat)))) ++ '+' :: td) := by
        simp [SemanticVersion.toString, SemanticVersion.toStringL, hia, hib, hic, optFalsy,
          validBuild_ne_empty hbt]
      rw [hL, parse_mk_with_build _ _ (by rw [hAeq]; simp [List.cons_append, hnv])
        hmmpfree htdfree hbt, parseCoreStr_roundtrip_none]
      simp [hcast.1.1, hcast.1.2, hcast.2]
    · -- with prerelease, no buildmetadata
      obtain ⟨sd⟩ := s
      have hsv : validPre (String.mk sd) = true := hpre (String.mk sd) rfl
      have hcorefree : ∀ c ∈ (natToStrL ma.toNat ++
          ('.' :: (natToStrL mi.toNat ++ ('.' :: (natToStrL pa.toNat ++ '-' :: sd)))) :
          List Char), (fun x => decide (x = '+')) c = false := by
        intro c hc
        apply decide_eq_false
        rcases List.mem_append.mp hc with h | h
        · exact ne_of_classBool (natToStrL_digits _ c h) (by decide)
        rcases List.mem_cons.mp h with rfl | h
        · decide
        rcases List.mem_append.mp h with h | h
        · exact ne_of_classBool (natToStrL_digits _ c h) (by decide)
        rcases List.mem_cons.mp h with rfl | h
        · decide
        rcases List.mem_append.mp h with h | h
        · exact ne_of_classBool (natToStrL_digits _ c h) (by decide)
        rcases List.mem_cons.mp h with rfl | h
        · decide
        rcases validPre_chars hsv c h with h2 | rfl
        · exact ne_of_classBool h2 (by decide)
        · decide
      have hL : SemanticVersion.toString ⟨ma, mi, pa, some (String.mk sd), none⟩ =
          String.mk (natToStrL ma.toNat ++
            ('.' :: (natToStrL mi.toNat ++
              ('.' :: (natToStrL pa.toNat ++ '-' :: sd))))) := by
        simp [SemanticVersion.toString, SemanticVersion.toStringL, hia, hib, hic, optFalsy,
          validPre_ne_empty hsv]
      rw [hL, parse_mk_no_build _ (by rw [hAeq]; simp [List.cons_append, hnv]) hcorefree,
        parseCoreStr_roundtrip_some ma.toNat mi.toNat pa.toNat sd hsv]
      simp [hcast.1.1, hcast.1.2, hcast.2]
    · -- with prerelease and buildmetadata
      obtain ⟨sd⟩ := s
      obtain ⟨td⟩ := t
      have hsv : validPre (String.mk sd) = true := hpre (String.mk sd) rfl
      have hbt : validBuild (String.mk td) = true := hbuild (String.mk td) rfl
      have htdfree : ∀ c ∈ td, (fun x => decide (x = '+')) c = false := by
        intro c hc
        apply decide_eq_false
        rcases validBuild_chars hbt c hc with h | rfl
        · exact ne_of_classBool h (by decide)
        · decide
      have hcorefree : ∀ c ∈ (natToStrL ma.toNat ++
          ('.' :: (natToStrL mi.toNat ++ ('.' :: (natToStrL pa.toNat ++ '-' :: sd)))) :
          List Char), (fun x => decide (x = '+')) c = false := by
        intro c hc
        apply decide_eq_false
        rcases List.mem_append.mp hc with h | h
        · exact ne_of_classBool (natToStrL_digits _ c h) (by decide)
        rcases List.mem_cons.mp h with rfl | h
        · decide
        rcases List.mem_append.mp h with h | h
        · exact ne_of_classBool (natToStrL_digits _ c h) (by decide)
        rcases List.mem_cons.mp h with rfl | h
        · decide
        rcases List.mem_append.mp h with h | h
        · exact ne_of_classBool (natToStrL_digits _ c h) (by decide)
        rcases List.mem_cons.mp h with rfl | h
        · decide
        rcases validPre_chars hsv c h with h2 | rfl
        · exact ne_of_classBool h2 (by decide)
        · decide
      have hL : SemanticVersion.toString ⟨ma, mi, pa, some (String.mk sd),
          some (String.mk td)⟩ =
          String.mk ((natToStrL ma.toNat ++
            ('.' :: (natToStrL mi.toNat ++
              ('.' :: (natToStrL pa.toNat ++ '-' :: sd))))) ++ '+' :: td) := by
        simp [SemanticVersion.toString, SemanticVersion.toStringL, hia, hib, hic, optFalsy,
          validPre_ne_empty hsv, validBuild_ne_empty hbt]
      rw [hL, parse_mk_with_build _ _ (by rw [hAeq]; simp [List.cons_append, hnv])
        hcorefree htdfree hbt, parseCoreStr_roundtrip_some ma.toNat mi.toNat pa.toNat sd hsv]
      simp [hcast.1.1, hcast.1.2, hcast.2]
  refine ⟨hmain, ?_⟩
  intro w hw
  rw [hmain, Option.some.injEq] at hw
  subst hw
  exact compare_refl _

/-- Concrete instantiation of C2 at 1.2.3-alpha.1+build-7. -/
theorem claimC2_roundtrip_witness :
    SemanticVersion.parse
      (SemanticVersion.toString ⟨1, 2, 3, some "alpha.1", some "build-7"⟩) =
      some ⟨1, 2, 3, some "alpha.1", some "build-7"⟩ :=
  (claimC2_roundtrip ⟨1, 2, 3, some "alpha.1", some "build-7"⟩ (by decide) (by decide)
    (by decide) (fun s hs => by cases hs; decide) (fun s hs => by cases hs; decide)).1

theorem isLeadOf_append_left {pat : List Char} : ∀ {u : List Char} (v : List Char),
    isLeadOf pat u = true → isLeadOf pat (u ++ v) = true := by
  induction pat with
  | nil => intro u v _; rfl
  | cons a as ih =>
    intro u v h
    cases u with
    | nil => simp [isLeadOf] at h
    | cons b bs =>
      simp only [isLeadOf, Bool.and_eq_true] at h ⊢
      exact ⟨h.1, ih v h.2⟩

theorem isLeadOf_of_append_le {pat : List Char} : ∀ {u : List Char} (v : List Char),
    pat.length ≤ u.length → isLeadOf pat (u ++ v) = isLeadOf pat u := by
  induction pat with
  | nil => intro u v _; rfl
  | cons a as ih =>
    intro u v h
    cases u with
    | nil => simp at h
    | cons b bs =>
      simp only [List.cons_append, isLeadOf]
      have hr : isLeadOf as (bs.append v) = isLeadOf as bs := ih (u := bs) v (by simpa using h)
      rw [hr]

theorem isLeadOf_length {pat : List Char} : ∀ {l : List Char},
    isLeadOf pat l = true → pat.length ≤ l.length := by
  induction pat with
  | nil => intro l _; simp
  | cons a as ih =>
    intro l h
    cases l with
    | nil => simp [isLeadOf] at h
    | cons b bs =>
      simp only [isLeadOf, Bool.and_eq_true] at h
      have := ih h.2
      simp only [List.length_cons]
      omega

theorem isLeadOf_take {pat : List Char} : ∀ {l : List Char},
    isLeadOf pat l = true → l.take pat.length = pat := by
  induction pat with
  | nil => intro l _; rfl
  | cons a as ih =>
    intro l h
    cases l with
    | nil => simp [isLeadOf] at h
    | cons b bs =>
      simp only [isLeadOf, Bool.and_eq_true] at h
      have hab : a = b := by
        have := h.1
        simpa using this
      simp only [List.length_cons, List.take_succ_cons]
      rw [ih h.2, ← hab]

theorem mem_occsFrom {pat : List Char} (hp : pat ≠ []) :
    ∀ {s : List Char} {i m : Nat}, (m ∈ occsFrom pat s i ↔
      ∃ d, m = i + d ∧ isLeadOf pat (s.drop d) = true) := by
  intro s
  induction s with
  | nil =>
    intro i m
    rcases pat with _ | ⟨c, cs⟩
    · exact absurd rfl hp
    constructor
    · intro h
      simp [occsFrom, isLeadOf] at h
    · rintro ⟨d, rfl, hd⟩
      simp [isLeadOf] at hd
  | cons c t ih =>
    intro i m
    constructor
    · intro h
      have h2 : (isLeadOf pat (c :: t) = true ∧ m = i) ∨ m ∈ occsFrom pat t (i + 1) := by
        simpa [occsFrom] using h
      rcases h2 with ⟨hl, rfl⟩ | h2
      · exact ⟨0, by omega, by simpa using hl⟩
      · obtain ⟨d, hm, hd⟩ := ih.mp h2
        exact ⟨d + 1, by omega, by simpa using hd⟩
    · rintro ⟨d, rfl, hd⟩
      cases d with
      | zero =>
        simp only [List.drop_zero] at hd
        simp [occsFrom, hd]
      | succ d2 =>
        have hmem : (i + 1) + d2 ∈ occsFrom pat t (i + 1) :=
          ih.mpr ⟨d2, rfl, by simpa using hd⟩
        have he : i + (d2 + 1) = (i + 1) + d2 := by omega
        rw [he]
        have hsplit : occsFrom pat (c :: t) i =
            (if isLeadOf pat (c :: t) = true then [i] else []) ++ occsFrom pat t (i + 1) := rfl
        rw [hsplit]
        exact List.mem_append.mpr (Or.inr hmem)

theorem occsFrom_shift {pat : List Char} {h : Char} {pt : List Char} (hpat : pat = h :: pt) :
    ∀ {pre : List Char} (rest : List Char), ¬ h ∈ pre → ∀ i,
    occsFrom pat (pre ++ rest) i = occsFrom pat rest (i + pre.length) := by
  intro pre
  induction pre with
  | nil => intro rest _ i; simp
  | cons c cs ih =>
    intro rest hpre i
    have hch : ¬ h = c := fun he => hpre (he ▸ List.mem_cons_self c cs)
    have hlead : isLeadOf pat (c :: (cs ++ rest)) = false := by
      rw [hpat]
      simp [isLeadOf, hch]
    rw [List.cons_append]
    rw [show occsFrom pat (c :: (cs ++ rest)) i =
      (if isLeadOf pat (c :: (cs ++ rest)) = true then [i] else []) ++
        occsFrom pat (cs ++ rest) (i + 1) from rfl]
    rw [if_neg (by simp [hlead]), List.nil_append,
      ih rest (fun hm => hpre (List.mem_cons_of_mem c hm)) (i + 1)]
    congr 1
    simp only [List.length_cons]
    omega

theorem occsFrom_ge {pat : List Char} : ∀ {s : List Char} {i m : Nat},
    m ∈ occsFrom pat s i → i ≤ m := by
  intro s
  induction s with
  | nil =>
    intro i m h
    simp only [occsFrom] at h
    split_ifs at h with hl
    · simp only [List.mem_singleton] at h
      omega
    · simp at h
  | cons c t ih =>
    intro i m h
    have h2 : (isLeadOf pat (c :: t) = true ∧ m = i) ∨ m ∈ occsFrom pat t (i + 1) := by
      simpa [occsFrom] using h
    rcases h2 with ⟨_, rfl⟩ | h2
    · omega
    · have := ih h2
      omega

theorem occsFrom_nodup {pat : List Char} : ∀ (s : List Char) (i : Nat),
    (occsFrom pat s i).Nodup := by
  intro s
  induction s with
  | nil =>
    intro i
    simp only [occsFrom]
    split_ifs <;> simp
  | cons c t ih =>
    intro i
    have hsplit : occsFrom pat (c :: t) i =
        (if isLeadOf pat (c :: t) = true then [i] else []) ++ occsFrom pat t (i + 1) := rfl
    rw [hsplit]
    by_cases hl : isLeadOf pat (c :: t) = true
    · rw [if_pos hl, List.singleton_append, List.nodup_cons]
      exact ⟨fun hmem => by have := occsFrom_ge hmem; omega, ih (i + 1)⟩
    · rw [if_neg hl, List.nil_append]
      exact ih (i + 1)

theorem eq_singleton_of_nodup {l : List Nat} {a : Nat} (hn : l.Nodup) (ha : a ∈ l)
    (hu : ∀ b ∈ l, b = a) : l = [a] := by
  rcases l with _ | ⟨x, t⟩
  · simp at ha
  · have hx : x = a := hu x (List.mem_cons_self x t)
    subst hx
    rcases t with _ | ⟨y, t2⟩
    · rfl
    · have hy : y = x := hu y (by simp)
      rw [List.nodup_cons] at hn
      exact absurd (by simp [hy.symm]) hn.1

theorem lead_unique_of_rangeAll {pat B : List Char} {k : Nat} (hpat : pat ≠ [])
    (hall : ((List.range (B.length + 1)).all
      (fun d => !(isLeadOf pat (B.drop d)) || decide (d = k))) = true) :
    ∀ d, isLeadOf pat (B.drop d) = true → d = k := by
  intro d hd
  by_cases hle : d ≤ B.length
  · have hmem : d ∈ List.range (B.length + 1) := List.mem_range.mpr (by omega)
    have h2 := (List.all_eq_true.mp hall) d hmem
    rw [hd] at h2
    simpa using h2
  · exfalso
    have hdrop : B.drop d = [] := List.drop_eq_nil_of_le (by omega)
    rw [hdrop] at hd
    rcases pat with _ | ⟨c, cs⟩
    · exact hpat rfl
    · simp [isLeadOf] at hd

theorem mem_post_of_lead_tail {B post : List Char} {d : Nat}
    (h : isLeadOf renovateTail ((B ++ post).drop d) = true)
    (hout : B.length < d + 15) : '-' ∈ post := by
  have hT15 : renovateTail.length = 15 := by decide
  have htake : ((B ++ post).drop d).take 15 = renovateTail := by
    have := isLeadOf_take h
    rwa [hT15] at this
  by_cases hd : B.length ≤ d
  · have hdrop : (B ++ post).drop d = post.drop (d - B.length) := by
      rw [List.drop_append_eq_append_drop, List.drop_eq_nil_of_le hd, List.nil_append]
    rw [hdrop] at htake
    have hmem : '-' ∈ renovateTail := by decide
    rw [← htake] at hmem
    exact List.mem_of_mem_drop (List.mem_of_mem_take hmem)
  · push_neg at hd
    have hdrop : (B ++ post).drop d = B.drop d ++ post :=
      List.drop_append_of_le_length (by omega)
    rw [hdrop, List.take_append_eq_append_take] at htake
    have hklen : (B.drop d).length = B.length - d := by simp
    have hlen15 : (B.drop d).length < 15 := by omega
    have htk : (B.drop d).take 15 = B.drop d := List.take_of_length_le (by omega)
    rw [htk] at htake
    have hpt : post.take (15 - (B.drop d).length) =
        renovateTail.drop ((B.drop d).length) := by
      have h2 := congrArg (List.drop (B.drop d).length) htake
      rwa [List.drop_left] at h2
    have hin : '-' ∈ renovateTail.drop ((B.drop d).length) := by
      have h15 : (B.drop d).length < 15 := hlen15
      generalize (B.drop d).length = k at h15 ⊢
      interval_cases k <;> decide
    rw [← hpt] at hin
    exact List.mem_of_mem_take hin

theorem renovateBlock_taillead :
    isLeadOf renovateTail (renovateBlock.drop (renovateBlock.length - 15)) = true := by
  decide

theorem renovateBlock_headlead : isLeadOf renovateHead renovateBlock = true := by
  decide

theorem renovateBlock_tail_unique_all :
    ((List.range (renovateBlock.length + 1)).all
      (fun d => !(isLeadOf renovateTail (renovateBlock.drop d)) ||
        decide (d = renovateBlock.length - 15))) = true := by
  decide

theorem tailOccs_single {pre post : List Char} (hpre : ¬ '<' ∈ pre) (hpost : ¬ '-' ∈ post) :
    occIdxs renovateTail (pre ++ (renovateBlock ++ post)) =
      [pre.length + (renovateBlock.length - 15)] := by
  have hTpat : renovateTail = '<' :: ("/details>\n\n---").data := by decide
  have hT15 : renovateTail.length = 15 := by decide
  have hN15 : 15 ≤ renovateBlock.length := by decide
  rw [occIdxs, occsFrom_shift hTpat (renovateBlock ++ post) hpre 0]
  refine eq_singleton_of_nodup (occsFrom_nodup _ _) ?_ ?_
  · rw [mem_occsFrom (by decide)]
    refine ⟨renovateBlock.length - 15, by omega, ?_⟩
    rw [List.drop_append_of_le_length (by omega)]
    exact isLeadOf_append_left post renovateBlock_taillead
  · intro b hb
    rw [mem_occsFrom (by decide)] at hb
    obtain ⟨d, rfl, hd⟩ := hb
    by_cases hin : d + 15 ≤ renovateBlock.length
    · rw [List.drop_append_of_le_length (by omega)] at hd
      rw [isLeadOf_of_append_le post (by rw [hT15, List.length_drop]; omega)] at hd
      have := lead_unique_of_rangeAll (by decide) renovateBlock_tail_unique_all d hd
      omega
    · exact absurd (mem_post_of_lead_tail hd (by omega)) hpost

theorem occsFrom_cons_of_lead {pat s : List Char} {i : Nat}
    (h : isLeadOf pat s = true) (hs : s ≠ []) :
    ∃ rest, occsFrom pat s i = i :: rest := by
  rcases s with _ | ⟨c, t⟩
  · exact absurd rfl hs
  · refine ⟨occsFrom pat t (i + 1), ?_⟩
    have hsplit : occsFrom pat (c :: t) i =
        (if isLeadOf pat (c :: t) = true then [i] else []) ++ occsFrom pat t (i + 1) := rfl
    rw [hsplit, if_pos h, List.singleton_append]

theorem stripRenovate_single {pre post : List Char} (hpre1 : ¬ '-' ∈ pre)
    (hpre2 : ¬ '<' ∈ pre) (hpost : ¬ '-' ∈ post) :
    stripRenovate (pre ++ (renovateBlock ++ post)) = pre ++ post := by
  have hHpat : renovateHead = '-' :: ("--\n\n### Release Notes\n\n<details>").data := by
    decide
  have hH33 : renovateHead.length = 33 := by decide
  have hT15 : renovateTail.length = 15 := by decide
  have hN48 : 48 ≤ renovateBlock.length := by decide
  have htails := tailOccs_single hpre2 hpost
  have hBne : renovateBlock ++ post ≠ [] := by
    intro hc
    have h1 := List.append_eq_nil.mp hc
    exact absurd h1.1 (by decide)
  obtain ⟨rest, hocc⟩ := occsFrom_cons_of_lead (i := 0 + pre.length)
    (isLeadOf_append_left post renovateBlock_headlead) hBne
  have hheads : occIdxs renovateHead (pre ++ (renovateBlock ++ post)) =
      (0 + pre.length) :: rest := by
    rw [occIdxs, occsFrom_shift hHpat (renovateBlock ++ post) hpre1 0, hocc]
  have hcond : (([pre.length + (renovateBlock.length - 15)] : List Nat).any
      (fun j => renovateHead.length + (0 + pre.length) ≤ j)) = true := by
    simp only [List.any_cons, List.any_nil, Bool.or_false, hH33]
    apply decide_eq_true
    omega
  simp only [stripRenovate, htails, hheads]
  rw [List.filter_cons]
  simp only [hcond, if_true]
  have hpred : decide (renovateHead.length + (0 + pre.length) ≤
      pre.length + (renovateBlock.length - 15)) = true := by
    rw [hH33]
    apply decide_eq_true
    omega
  have hlast : (List.filter (fun j => decide (renovateHead.length + (0 + pre.length) ≤ j))
      [pre.length + (renovateBlock.length - 15)]).getLast? =
      some (pre.length + (renovateBlock.length - 15)) := by
    simp only [List.filter_cons, List.filter_nil, hpred, if_true]
    rfl
  rw [hlast]
  show List.take (0 + pre.length) (pre ++ (renovateBlock ++ post)) ++
      List.drop (pre.length + (renovateBlock.length - 15) + renovateTail.length)
        (pre ++ (renovateBlock ++ post)) = pre ++ post
  have hz : (0 : Nat) + pre.length = pre.length := by omega
  have harith : pre.length + (renovateBlock.length - 15) + renovateTail.length =
      (pre ++ renovateBlock).length := by
    rw [hT15, List.length_append]
    omega
  rw [hz, harith, List.take_left, ← List.append_assoc, List.drop_left]

/-- Claim C8 (amended): `ParseConventionalBody` strips one maximal renovate-style span —
from the first `---`/`### Release Notes`/`<details>` opener through the LAST
`</details>`/`---` closer in the body (the regex is greedy and only its first match is
replaced) — and returns MAJOR iff the remaining text contains `BREAKING CHANGE`.
For a body holding a single such block, a breaking-change mention inside the block
does not trigger MAJOR, while a genuine mention outside the block does.  (The side
conditions keep the surrounding text free of the delimiter characters, pinning the
match to the block.) -/
theorem claimC8_body_stripping :
    (∀ pre post : List Char, ¬ '-' ∈ pre → ¬ '<' ∈ pre → ¬ '-' ∈ post →
      ParseConventionalBody (String.mk (pre ++ (renovateBlock ++ post))) =
        (if containsSub (pre ++ post) breakingToken then some Impact.MAJOR else none)) ∧
    containsSub renovateBlock breakingToken = true := by
  constructor
  · intro pre post h1 h2 h3
    unfold ParseConventionalBody
    rw [show (String.mk (pre ++ (renovateBlock ++ post))).data =
      pre ++ (renovateBlock ++ post) from rfl]
    rw [stripRenovate_single h1 h2 h3]
  · show containsSub renovateBlock breakingToken = true
    decide

set_option maxRecDepth 400000 in
/-- Concrete instantiation of C8: a genuine BREAKING CHANGE before a single renovate
block yields MAJOR, and a body that is exactly one block (whose only mention is the
internal upstream heading) yields none. -/
theorem claimC8_body_stripping_witness :
    ParseConventionalBody (String.mk (("BREAKING CHANGE: changed API\n").data ++
      (renovateBlock ++ ("\ntrailing text").data))) = some Impact.MAJOR ∧
    ParseConventionalBody (String.mk (("intro text\n").data ++
      (renovateBlock ++ ("\ntrailing text").data))) = none := by
  constructor
  · have h := claimC8_body_stripping.1 ("BREAKING CHANGE: changed API\n").data
      ("\ntrailing text").data (by decide) (by decide) (by decide)
    rw [h]
    decide
  · have h := claimC8_body_stripping.1 ("intro text\n").data
      ("\ntrailing text").data (by decide) (by decide) (by decide)
    rw [h]
    decide

set_option maxRecDepth 1000000 in
/-- Claim C8 counterexample: with two renovate blocks, the greedy `(?:.|\n)*` makes the
single replaced match run from the first opener to the LAST closer, so a genuine
BREAKING CHANGE line between the two blocks — outside each block — is stripped too
and the body yields none, where the claim (block "ending at the next `---`") expects
MAJOR. -/
theorem claimC8_counterexample :
    ParseConventionalBody (String.mk (renovateBlock ++
      (("\nBREAKING CHANGE: real\n").data ++ renovateBlock))) = none ∧
    containsSub (("\nBREAKING CHANGE: real\n").data) breakingToken = true := by
  constructor
  · decide
  · decide
